import Mathlib

/-!
Verification of the deduplication engine of the unified UFO sightings
database (`dedup.py`, `create_schema.py`).

The Python code is shallowly embedded: strings become `List Char` /
`String`, `None`-able values become `Option`, SQLite tables become lists
of structures, and Python floats become `ℚ`.  The character-class
predicates (`\s`, `\w`, `\d`, `upper`, `lower`) are modelled on their
ASCII behaviour, which covers every string the regexes in the source
target.  All definitions are executable.
-/

namespace UfoDedup

/-- Python whitespace (`\s`, `str.strip`), ASCII fragment:
space, tab, newline, carriage return, vertical tab, form feed. -/
def isPySpace (c : Char) : Bool :=
  c = ' ' || c = '\t' || c = '\n' || c = '\x0d' || c = '\x0b' || c = '\x0c'

/-- Python word character (`\w`), ASCII fragment: alphanumeric or underscore. -/
def isWordChar (c : Char) : Bool :=
  c.isAlphanum || c = '_'

/-- Python digit (`\d`), ASCII fragment. -/
def isDigitChar (c : Char) : Bool :=
  '0' ≤ c && c ≤ '9'

/-- Python `str.strip()` on a character list: drop leading and trailing
whitespace. -/
def pyStrip (l : List Char) : List Char :=
  ((l.dropWhile isPySpace).reverse.dropWhile isPySpace).reverse

/-- Python `str.strip()` on a `String`. -/
def pyStripS (s : String) : String :=
  ⟨pyStrip s.data⟩

/-- Python `needle in hay` substring test. -/
def listContains (hay needle : List Char) : Bool :=
  (List.range (hay.length + 1)).any (fun i => (hay.drop i).take needle.length = needle)

/-!
## `strip_nuforc_prefix` (dedup.py lines 53-59)

```python
def strip_nuforc_prefix(desc):
    if not desc:
        return desc
    if desc.startswith('NUFORC UFO Sighting'):
        return re.sub(r'^NUFORC UFO Sighting \d+\s*', '', desc).strip()
    return desc
```

The anchored pattern matches at most once, at the start: the literal
header, a space, a maximal digit run (at least one digit) and a maximal
whitespace run.  When the pattern does not match, `re.sub` returns the
input unchanged, but `.strip()` is still applied (the `startswith`
branch was taken).  `None` never reaches the regex branch, so the model
works on `String` with `""` as the only falsy value.
-/

/-- Result of `re.sub(r'^NUFORC UFO Sighting \d+\s*', '', l)` restricted to
inputs that start with the literal header: `some rest` when the pattern
matches (returning what follows the match), `none` when it does not. -/
def nuforcSub (l : List Char) : Option (List Char) :=
  match l.drop 19 with
  | ' ' :: t =>
      let ds := t.takeWhile isDigitChar
      if ds = [] then none
      else some ((t.drop ds.length).dropWhile isPySpace)
  | _ => none

/-- Model of `strip_nuforc_prefix` on strings (`""` plays the falsy role;
the `None` input is handled at call sites, where the argument is already
known non-null). -/
def strip_nuforc (s : String) : String :=
  if s = "" then s
  else if s.data.take 19 = "NUFORC UFO Sighting".data then
    match nuforcSub s.data with
    | some rest => ⟨pyStrip rest⟩
    | none => ⟨pyStrip s.data⟩
  else s

/-!
## `strip_mufon_boilerplate` (dedup.py lines 62-69)

```python
def strip_mufon_boilerplate(desc):
    if not desc:
        return desc
    if 'Submitted by razor via e-mail' in desc[:60]:
        m = re.search(r'Investigators?\s*Not(?:es?)?[.:,]?\s*(.+)', desc, re.DOTALL)
        return m.group(1).strip() if m else desc
    return desc
```

`re.search` finds the match at the leftmost possible start position; at
a given position Python's backtracking tries the greedy alternative of
each optional piece first.  The final `(.+)` is greedy under `DOTALL`
and captures everything up to the end of the string, so a candidate
match succeeds exactly when at least one character remains for it.
-/

/-- Tail of the MUFON pattern, `\s*(.+)` (DOTALL): the greedy `\s*`
consumes the maximal whitespace run and backtracks one character at a
time until `(.+)` has at least one character.  Returns `group(1)`. -/
def mufonTail2 (t : List Char) : Option (List Char) :=
  let rest := t.dropWhile isPySpace
  if rest ≠ [] then some rest
  else if t ≠ [] then some (t.drop (t.length - 1))
  else none

/-- The `[.:,]?\s*(.+)` part: the optional punctuation is tried
consumed-first, falling back to not consuming it. -/
def mufonTail1 (t : List Char) : Option (List Char) :=
  match t with
  | c :: t2 =>
      if c = '.' || c = ':' || c = ',' then
        (mufonTail2 t2).orElse (fun _ => mufonTail2 t)
      else mufonTail2 t
  | [] => none

/-- The `(?:es?)?[.:,]?\s*(.+)` part after the literal `Not`: the
optional group tries `es`, then `e`, then nothing. -/
def mufonAfterNot (t : List Char) : Option (List Char) :=
  (if t.take 2 = ['e', 's'] then mufonTail1 (t.drop 2) else none).orElse
    (fun _ => (if t.take 1 = ['e'] then mufonTail1 (t.drop 1) else none).orElse
      (fun _ => mufonTail1 t))

/-- The `\s*Not...` part after the optional `s`: the greedy `\s*` is
forced to consume the maximal whitespace run (whitespace cannot start
the literal `Not`, so shorter runs can never match). -/
def mufonAfterS (t : List Char) : Option (List Char) :=
  let t2 := t.dropWhile isPySpace
  if t2.take 3 = ['N', 'o', 't'] then mufonAfterNot (t2.drop 3) else none

/-- Attempt the whole pattern at one start position: the literal
`Investigator`, then optional `s` (tried consumed-first; the fallback
without `s` can only matter when the next character is not `s`). -/
def mufonMatchFrom (l : List Char) (i : Nat) : Option (List Char) :=
  let t := l.drop i
  if t.take 12 = "Investigator".data then
    let t1 := t.drop 12
    match t1 with
    | 's' :: t2 => (mufonAfterS t2).orElse (fun _ => mufonAfterS t1)
    | _ => mufonAfterS t1
  else none

/-- Leftmost `re.search` over all start positions. -/
def mufonSearch (l : List Char) : Option (List Char) :=
  (List.range (l.length + 1)).findSome? (fun i => mufonMatchFrom l i)

/-- The literal marker tested against the first 60 characters. -/
def mufonMarker : List Char := "Submitted by razor via e-mail".data

/-- Model of `strip_mufon_boilerplate` on strings (`""` plays the falsy
role).  Note: when the marker is present but the pattern fails to match,
the original string is returned unstripped. -/
def strip_mufon (s : String) : String :=
  if s = "" then s
  else if listContains (s.data.take 60) mufonMarker then
    match mufonSearch s.data with
    | some g => ⟨pyStrip g⟩
    | none => s
  else s

/-!
## `token_jaccard` (dedup.py lines 72-82)

```python
def token_jaccard(a, b):
    if not a or not b:
        return 0.0
    a_tokens = set(re.findall(r'\w+', a.lower()))
    b_tokens = set(re.findall(r'\w+', b.lower()))
    if not a_tokens or not b_tokens:
        return 0.0
    intersection = len(a_tokens & b_tokens)
    union = len(a_tokens | b_tokens)
    return intersection / union
```
-/

/-- Tokenizer worker: walk the text accumulating the current
word-character run; a non-word character (or the end) emits the run. -/
def tokensAux : List Char → List Char → List (List Char)
  | [], acc => if acc = [] then [] else [acc]
  | c :: t, acc =>
      if isWordChar c then tokensAux t (acc ++ [c])
      else if acc = [] then tokensAux t []
      else acc :: tokensAux t []

/-- Python `re.findall(r'\w+', ...)`: the list of maximal word-character
runs, in order. -/
def wordTokens (l : List Char) : List (List Char) := tokensAux l []

/-- The token set of a string: word tokens of the lowercased text. -/
def tokenSet (s : String) : Finset (List Char) :=
  (wordTokens (s.data.map Char.toLower)).toFinset

/-- Model of `token_jaccard` (`""` plays the falsy role; at every call
site the arguments are strings, possibly empty). -/
def token_jaccard (a b : String) : ℚ :=
  if a = "" || b = "" then 0
  else
    let at_ := tokenSet a
    let bt := tokenSet b
    if at_ = ∅ ∨ bt = ∅ then 0
    else ((at_ ∩ bt).card : ℚ) / ((at_ ∪ bt).card : ℚ)

/-!
## `normalize_city` (dedup.py lines 127-138)

```python
def normalize_city(city_str):
    if not city_str:
        return ''
    c = city_str.strip().upper()
    c = re.sub(r'\s*\(.*\)\s*$', '', c)
    c = re.sub(r'[\?\.\!]+$', '', c)
    c = re.sub(r'\s+', ' ', c).strip()
    return c
```

Each substitution is modelled by a direct decision procedure for its
pattern.  `.` does not match a newline (no `DOTALL`).  For the two
end-anchored patterns, `$` also matches just before a final newline;
for `\s*\(.*\)\s*$` that case is subsumed (the greedy `\s*` consumes a
final newline), for `[\?\.\!]+$` it is not and is modelled explicitly.
-/

/-- Does `\s*\(.*\)\s*$` match starting at position `i`?  The greedy
`\s*` is forced up to the next non-space character, which must be `(`;
then some later `)` must be reachable without crossing a newline, with
only whitespace after it. -/
def parenMatchAt (l : List Char) (i : Nat) : Bool :=
  match (l.drop i).dropWhile isPySpace with
  | c :: t =>
      c = '(' &&
        (List.range t.length).any (fun j =>
          t.getD j ' ' = ')' && (t.take j).all (fun c => c ≠ '\n') &&
            (t.drop (j + 1)).all isPySpace)
  | [] => false

/-- Result of `re.sub(r'\s*\(.*\)\s*$', '', l)`: cut at the leftmost
position where the pattern matches (the match always extends to the end
of the string, since the greedy `\s*` consumes a final newline too). -/
def parenSub (l : List Char) : List Char :=
  match (List.range (l.length + 1)).find? (fun i => parenMatchAt l i) with
  | some i => l.take i
  | none => l

/-- The trailing-punctuation character class `[\?\.\!]`. -/
def isPunctChar (c : Char) : Bool :=
  c = '?' || c = '.' || c = '!'

/-- Does `[\?\.\!]+$` match starting at position `i`?  The match is a
nonempty punctuation run that reaches either the end of the string or
the position just before a final newline (which `$` also matches). -/
def punctMatchAt (l : List Char) (i : Nat) : Bool :=
  let t := l.drop i
  decide (t ≠ []) &&
    (t.all isPunctChar ||
      (t.getLast? = some '\n' && decide (t.dropLast ≠ []) && t.dropLast.all isPunctChar))

/-- Result of `re.sub(r'[\?\.\!]+$', '', l)`: cut at the leftmost
position where the pattern matches (keeping a final newline when the
match ended just before it); the leftmost match is the maximal trailing
run. -/
def punctSub (l : List Char) : List Char :=
  match (List.range l.length).find? (fun i => punctMatchAt l i) with
  | some i =>
      if (l.drop i).all isPunctChar then l.take i else l.take i ++ ['\n']
  | none => l

/-- Worker for the whitespace collapse: the flag records whether the
previous character was whitespace (in which case further whitespace
belongs to an already-replaced run and is dropped). -/
def collapseAux : List Char → Bool → List Char
  | [], _ => []
  | c :: t, prevWs =>
      if isPySpace c then
        if prevWs then collapseAux t true
        else ' ' :: collapseAux t true
      else c :: collapseAux t false

/-- Result of `re.sub(r'\s+', ' ', l)`: every maximal whitespace run
becomes a single space. -/
def collapseWs (l : List Char) : List Char := collapseAux l false

/-- The normalization pipeline on a nonempty character list. -/
def normCityCore (l : List Char) : List Char :=
  pyStrip (collapseWs (punctSub (parenSub ((pyStrip l).map Char.toUpper))))

/-- Model of `normalize_city` (argument may be SQL NULL). -/
def normalize_city (cityStr : Option String) : String :=
  match cityStr with
  | none => ""
  | some s => if s = "" then "" else ⟨normCityCore s.data⟩

/-!
## difflib.SequenceMatcher

`compute_similarity` falls back to
`difflib.SequenceMatcher(None, a[:1000], b[:1000]).ratio()`.  With
`isjunk=None` the junk set `bjunk` is empty, and the default
`autojunk=True` purges "popular" elements from the index `b2j` when
`len(b) >= 200` (an element is popular when it occurs more than
`len(b) // 100 + 1` times).  `ratio` is `2 * M / (len(a) + len(b))`
where `M` is the total size of the matching blocks produced by
recursively splitting around `find_longest_match`.
-/

/-- Autojunk popularity test of `SequenceMatcher.__chain_b`. -/
def popularB (b : List Char) (c : Char) : Bool :=
  decide (200 ≤ b.length) && decide (b.length / 100 + 1 < b.count c)

/-- The purged index `b2j`: ascending positions of `c` in `b`, empty for
popular elements. -/
def b2j (b : List Char) (c : Char) : List Nat :=
  if popularB b c then []
  else (List.range b.length).filter (fun j => decide (b.get? j = some c))

/-- State of the `find_longest_match` main loop: the row map being
built (`newj2len`, total function defaulting to 0) and the current best
block. -/
structure FlmSt where
  j2 : Nat → Nat
  bi : Nat
  bj : Nat
  bs : Nat

/-- One inner-loop step of `find_longest_match` at row `i`, column `j`:
`k = j2len.get(j-1, 0) + 1` reads the previous row's map `j2old`, the
new map records `k` at `j`, and the best block is updated when `k`
strictly improves it (Python stores `besti = i-k+1`; the chain length
`k` never exceeds `i+1`, so natural subtraction is exact). -/
def colStep (i : Nat) (j2old : Nat → Nat) (st : FlmSt) (j : Nat) : FlmSt :=
  let k := (if j = 0 then 0 else j2old (j - 1)) + 1
  let j2n := fun x => if x = j then k else st.j2 x
  if st.bs < k then ⟨j2n, i + 1 - k, j + 1 - k, k⟩
  else ⟨j2n, st.bi, st.bj, st.bs⟩

/-- One outer-loop step at row `i`: iterate over the positions of
`a[i]` in the purged index, restricted to `[blo, bhi)` (the Python
`continue`/`break` on an ascending list), starting from a fresh row
map. -/
def rowStep (a b : List Char) (blo bhi : Nat) (st : FlmSt) (i : Nat) : FlmSt :=
  let js := (b2j b (a.getD i ' ')).filter (fun j => decide (blo ≤ j) && decide (j < bhi))
  js.foldl (colStep i st.j2) ⟨fun _ => 0, st.bi, st.bj, st.bs⟩

/-- The main double loop of `find_longest_match`, rows `alo..ahi-1`,
initial best `(alo, blo, 0)`. -/
def flmMain (a b : List Char) (alo ahi blo bhi : Nat) : FlmSt :=
  (List.range' alo (ahi - alo)).foldl (rowStep a b blo bhi) ⟨fun _ => 0, alo, blo, 0⟩

/-- Backward extension of the best block while the adjacent characters
are equal (`isjunk=None` makes `bjunk` empty, so the non-junk guard is
vacuous and the subsequent junk-extension loops never run). -/
def extBack (a b : List Char) (alo blo : Nat) (bi bj bs : Nat) : Nat × Nat × Nat :=
  if alo < bi ∧ blo < bj ∧ a.get? (bi - 1) = b.get? (bj - 1) then
    extBack a b alo blo (bi - 1) (bj - 1) (bs + 1)
  else (bi, bj, bs)
termination_by bi

/-- Forward extension of the best block while the next characters are
equal. -/
def extFwd (a b : List Char) (ahi bhi : Nat) (bi bj bs : Nat) : Nat × Nat × Nat :=
  if bi + bs < ahi ∧ bj + bs < bhi ∧ a.get? (bi + bs) = b.get? (bj + bs) then
    extFwd a b ahi bhi bi bj (bs + 1)
  else (bi, bj, bs)
termination_by ahi - (bi + bs)
decreasing_by omega

/-- Model of `find_longest_match(alo, ahi, blo, bhi)`. -/
def flm (a b : List Char) (alo ahi blo bhi : Nat) : Nat × Nat × Nat :=
  let m := flmMain a b alo ahi blo bhi
  let p := extBack a b alo blo m.bi m.bj m.bs
  extFwd a b ahi bhi p.1 p.2.1 p.2.2

/-- Total size of the matching blocks of `get_matching_blocks`: split
recursively around the longest match, descending into a side only when
both of its ranges are nonempty (as the queue in the Python source
does).  The bounds in the guard always hold when `k > 0` (lemma
`flm_bounds` below), so the guard is equivalent to the source's
`if k:`; it is carried in the `if` only to justify termination. -/
def matchTotal (a b : List Char) (alo ahi blo bhi : Nat) : Nat :=
  match flm a b alo ahi blo bhi with
  | (i, j, k) =>
      if _h : 0 < k ∧ alo ≤ i ∧ i + k ≤ ahi ∧ blo ≤ j ∧ j + k ≤ bhi then
        (if alo < i ∧ blo < j then matchTotal a b alo i blo j else 0)
          + k
          + (if i + k < ahi ∧ j + k < bhi then
              matchTotal a b (i + k) ahi (j + k) bhi else 0)
      else 0
termination_by (ahi - alo) + (bhi - blo)
decreasing_by all_goals omega

/-- Model of `SequenceMatcher(None, a, b).ratio()` (the callers never
reach it with two empty strings; `ℚ` division by zero yields 0 there). -/
def seqRatio (a b : List Char) : ℚ :=
  2 * (matchTotal a b 0 a.length 0 b.length : ℚ) / ((a.length : ℚ) + (b.length : ℚ))

/-!
## `compute_similarity` (dedup.py lines 85-124)
-/

/-- Source-database ids (`source_database` table). -/
def SRC_MUFON : Nat := 1

/-- NUFORC source id. -/
def SRC_NUFORC : Nat := 2

/-- UFOCAT source id. -/
def SRC_UFOCAT : Nat := 3

/-- UPDB source id. -/
def SRC_UPDB : Nat := 4

/-- UFO-search source id (was Geldreich). -/
def SRC_UFOSEARCH : Nat := 5

/-- The quick "starts with" shortcut of `compute_similarity`: case-fold
the stripped strings; when the shorter has at least 20 characters, test
whether either is a prefix of the other over the shared-length
window. -/
def startsWithShortcut (a b : String) : Bool :=
  let an := (pyStrip a.data).map Char.toLower
  let bn := (pyStrip b.data).map Char.toLower
  let shorter := min an.length bn.length
  decide (20 ≤ shorter) && ((an.take shorter).isPrefixOf bn || (bn.take shorter).isPrefixOf an)

/-- The source-specific preprocessing of `compute_similarity`: NUFORC
descriptions lose their header, MUFON descriptions their boilerplate. -/
def stripFor (src : Option Nat) (d : String) : String :=
  if src = some SRC_MUFON then
    strip_mufon (if src = some SRC_NUFORC then strip_nuforc d else d)
  else if src = some SRC_NUFORC then strip_nuforc d else d

/-- The scoring chain of `compute_similarity` on the preprocessed
strings: empty check, the 0.95 starts-with shortcut, the 0.03 Jaccard
fast filter, then `SequenceMatcher` on the first 1000 characters. -/
def simScore (a b : String) : ℚ :=
  if a = "" ∨ b = "" then 0
  else if startsWithShortcut a b then 19 / 20
  else if token_jaccard a b < 3 / 100 then token_jaccard a b
  else seqRatio (a.data.take 1000) (b.data.take 1000)

/-- Model of `compute_similarity(desc_a, desc_b, source_a, source_b)`:
the null/empty guard, source-specific stripping, then the scoring
chain. -/
def compute_similarity (descA descB : Option String)
    (sourceA sourceB : Option Nat) : ℚ :=
  match descA, descB with
  | some da, some db =>
      if da = "" ∨ db = "" then 0
      else simScore (stripFor sourceA da) (stripFor sourceB db)
  | _, _ => 0

/-!
## `parse_ufosearch_city_state` (dedup.py lines 141-148)

```python
def parse_ufosearch_city_state(raw_text):
    if not raw_text:
        return None, None
    m = re.match(r'^(.+?),\s*([A-Z]{2})\s*\??$', raw_text.strip(), re.I)
    if m and m.group(2).upper() in US_STATES:
        return m.group(1).strip().upper(), m.group(2).upper()
    return None, None
```

The lazy `(.+?)` selects the smallest split position whose remainder
matches; the state-set membership test happens after the regex, so a
failing membership does not retry a later comma.
-/

/-- US state / territory and Canadian province codes (dedup.py lines
37-46). -/
def usStates : List String :=
  ["AL", "AK", "AZ", "AR", "CA", "CO", "CT", "DE", "FL", "GA",
   "HI", "ID", "IL", "IN", "IA", "KS", "KY", "LA", "ME", "MD",
   "MA", "MI", "MN", "MS", "MO", "MT", "NE", "NV", "NH", "NJ",
   "NM", "NY", "NC", "ND", "OH", "OK", "OR", "PA", "RI", "SC",
   "SD", "TN", "TX", "UT", "VT", "VA", "WA", "WV", "WI", "WY",
   "DC", "PR", "VI", "GU", "AS", "MP",
   "AB", "BC", "MB", "NB", "NL", "NS", "NT", "NU", "ON", "PE", "QC", "SK", "YT"]

/-- Does `\s*([A-Z]{2})\s*\??$` (case-insensitive) match the remainder
after the comma?  `$` also accepts a position just before a final
newline (unreachable here because the input was stripped, kept for
faithfulness). -/
def ufosearchTailOk (r : List Char) : Bool :=
  match r.dropWhile isPySpace with
  | c1 :: c2 :: r2 =>
      c1.isAlpha && c2.isAlpha &&
        (let r3 := r2.dropWhile isPySpace
         decide (r3 = []) || decide (r3 = ['?']) || decide (r3 = ['?', '\n']))
  | _ => false

/-- Model of `parse_ufosearch_city_state` (the `None, None` result is
`none`). -/
def parse_ufosearch_city_state (rawText : String) : Option (String × String) :=
  if rawText = "" then none
  else
    let t := pyStrip rawText.data
    match (List.range t.length).find? (fun i =>
        decide (1 ≤ i) && decide (t.getD i ' ' = ',') &&
          (t.take i).all (fun c => decide (c ≠ '\n')) &&
          ufosearchTailOk (t.drop (i + 1))) with
    | some i =>
        let st := (((t.drop (i + 1)).dropWhile isPySpace).take 2).map Char.toUpper
        if (⟨st⟩ : String) ∈ usStates then
          some (⟨(pyStrip (t.take i)).map Char.toUpper⟩, ⟨st⟩)
        else none
    | none => none

/-!
## The store (create_schema.py lines 176-187, dedup.py lines 237-260)

`duplicate_candidate` has a `UNIQUE (sighting_id_a, sighting_id_b)`
constraint; `insert_candidates` normalizes each tuple to `a < b`
(dropping self-pairs) and inserts with `INSERT OR IGNORE`, so a tuple
whose canonical pair is already present leaves the table unchanged.
The model keeps the table as a list of rows in insertion order; the
`rowcount` return value is not modelled.
-/

/-- One row of the `duplicate_candidate` table (the `id` and
`resolved_at` columns play no role in the engine and are omitted). -/
structure Candidate where
  sighting_id_a : Nat
  sighting_id_b : Nat
  similarity_score : ℚ
  match_method : String
  status : String
deriving DecidableEq, Repr

/-- One row of the `sighting` table (only the columns read by the
engine). -/
structure Sighting where
  id : Nat
  source_db_id : Nat
  date_event : Option String
  description : Option String
  location_id : Option Nat
  source_ref : Option String
deriving DecidableEq, Repr

/-- One row of the `location` table (only the columns read by the
engine). -/
structure Location where
  id : Nat
  raw_text : Option String
  city : Option String
  state : Option String
  country : Option String
deriving DecidableEq, Repr

/-- The database state seen by the engine. -/
structure DB where
  sightings : List Sighting
  locations : List Location
  candidates : List Candidate
deriving Repr

/-- Model of `insert_candidates(conn, candidates)`: normalize each
tuple to `a < b` (skipping self-pairs), then `INSERT OR IGNORE` each in
order against the `UNIQUE (sighting_id_a, sighting_id_b)`
constraint. -/
def insert_candidates (tbl : List Candidate)
    (cands : List (Nat × Nat × ℚ × String × String)) : List Candidate :=
  let normalized := cands.filterMap (fun q =>
    if q.1 = q.2.1 then none
    else some (min q.1 q.2.1, max q.1 q.2.1, q.2.2.1, q.2.2.2.1, q.2.2.2.2))
  normalized.foldl (fun t q =>
    if t.any (fun r => r.sighting_id_a = q.1 && r.sighting_id_b = q.2.1) then t
    else t ++ [⟨q.1, q.2.1, q.2.2.1, q.2.2.2.1, q.2.2.2.2⟩]) tbl

/-!
## Data loading helpers (dedup.py lines 155-234)

SQL result rows carry no specified order; the model fixes the order of
`db.sightings`.  Python's `defaultdict` grouping and the set
intersections of the tiers likewise iterate in an order the engine's
results do not depend on; the model represents a grouping as the flat
list of key/value rows, with group contents recovered by key.
-/

/-- SQLite `TRIM`: strip space characters (only `' '`) at both ends. -/
def sqlTrim (s : String) : String :=
  ⟨((s.data.dropWhile (fun c => c = ' ')).reverse.dropWhile (fun c => c = ' ')).reverse⟩

/-- First 10 characters (SQL `SUBSTR(x, 1, 10)`). -/
def strTake (n : Nat) (s : String) : String := ⟨s.data.take n⟩

/-- The loader's state normalization `(state or '').strip().upper()`. -/
def stateNorm (st : Option String) : String :=
  ⟨(pyStrip (st.getD "").data).map Char.toUpper⟩

/-- SQL inner join of `sighting` with `location` on `location_id`. -/
def joinRows (db : DB) : List (Sighting × Location) :=
  db.sightings.flatMap (fun s =>
    (db.locations.filter (fun l => s.location_id = some l.id)).map (fun l => (s, l)))

/-- Distinct elements of a list in first-occurrence order. -/
def distinctsIn {α : Type} [DecidableEq α] (l : List α) : List α :=
  l.foldl (fun acc x => if x ∈ acc then acc else acc ++ [x]) []

/-- Keys of a key/value row list, in first-occurrence order. -/
def keysOf {κ ν : Type} [DecidableEq κ] (l : List (κ × ν)) : List κ :=
  distinctsIn (l.map (fun kv => kv.1))

/-- The values grouped under one key. -/
def groupGet {κ ν : Type} [DecidableEq κ] (l : List (κ × ν)) (k : κ) : List ν :=
  (l.filter (fun kv => kv.1 = k)).map (fun kv => kv.2)

/-- Model of `load_source_sightings`: rows of the given source with a
non-null date, joined to their location, keyed by
`(date[:10], normalize_city(city), state-normalized)`; rows whose
truncated date or normalized city is empty are skipped.  The unused
`extra_where` parameter (never passed by any caller) is omitted. -/
def load_source_sightings (db : DB) (sourceDbId : Nat)
    (useRawTextAsCity : Bool := false) (sourceRefFilter : Option String := none) :
    List ((String × String × String) × (Nat × Option String)) :=
  (joinRows db).filterMap (fun sl =>
    if sl.1.source_db_id == sourceDbId && sl.1.date_event.isSome &&
        (match sourceRefFilter with
         | none => true
         | some f => sl.1.source_ref == some f) then
      let d := strTake 10 (sl.1.date_event.getD "")
      let cityN := normalize_city (if useRawTextAsCity then sl.2.raw_text else sl.2.city)
      if d = "" ∨ cityN = "" then none
      else some ((d, cityN, stateNorm sl.2.state), (sl.1.id, sl.1.description))
    else none)

/-- Model of `load_source_sightings_city_only`: like the full loader
but keyed by `(date[:10], normalize_city(city))` only, with the SQL
filters `l.city IS NOT NULL AND TRIM(l.city) != ''` and an optional
country filter; values also carry the source id. -/
def load_source_sightings_city_only (db : DB) (sourceDbId : Nat)
    (countryFilter : Option String := none) :
    List ((String × String) × (Nat × Option String × Nat)) :=
  (joinRows db).filterMap (fun sl =>
    if sl.1.source_db_id == sourceDbId && sl.1.date_event.isSome &&
        (match countryFilter with
         | none => true
         | some cf => sl.2.country == some cf) &&
        sl.2.city.isSome && decide (sqlTrim (sl.2.city.getD "") ≠ "") then
      let d := strTake 10 (sl.1.date_event.getD "")
      let cityN := normalize_city sl.2.city
      if d = "" ∨ cityN = "" then none
      else some ((d, cityN), (sl.1.id, sl.1.description, sl.1.source_db_id))
    else none)

/-!
## Tier implementations (dedup.py lines 283-595)

Each tier reads `sighting`/`location` and writes only through
`insert_candidates`.  Python's `set(...) & set(...)` over group keys is
modelled as a filtered key list; mid-loop batch flushes (tiers 2b/2c/3)
only split one insertion into several over pairwise-distinct tuples
computed against a fixed table snapshot, so the model performs each
sub-phase's insertion in one call, which leaves the final table
identical.
-/

/-- Score every cross pair inside each overlapping group of two
full-key loads (the doubly nested loop shared by tiers 1a, 2a, 2b and
2d). -/
def tierPairs (xs ys : List ((String × String × String) × (Nat × Option String)))
    (srcX srcY : Nat) (method : String) : List (Nat × Nat × ℚ × String × String) :=
  ((keysOf xs).filter (fun k => k ∈ keysOf ys)).flatMap (fun k =>
    (groupGet xs k).flatMap (fun xv =>
      (groupGet ys k).map (fun yv =>
        (xv.1, yv.1, compute_similarity xv.2 yv.2 (some srcX) (some srcY),
         method, "pending"))))

/-- Model of `tier_1a`: MUFON vs NUFORC on the full
`(date, city, state)` key; every pair is inserted regardless of
score. -/
def tier_1a (db : DB) : DB :=
  let cands := tierPairs (load_source_sightings db SRC_MUFON)
    (load_source_sightings db SRC_NUFORC) SRC_MUFON SRC_NUFORC "tier1a_mufon_nuforc"
  { db with candidates := insert_candidates db.candidates cands }

/-- Drop the state component of a full-key load (the
`other_city[(d, city)].extend(items)` conversion of tier 2c). -/
def cityKey {ν : Type} (l : List ((String × String × String) × ν)) :
    List ((String × String) × ν) :=
  l.map (fun kv => ((kv.1.1, kv.1.2.1), kv.2))

/-- The UPDB-side nested loop of tier 2c: UPDB city-only groups against
another source's city-keyed groups. -/
def tierPairsCity (xs : List ((String × String) × (Nat × Option String × Nat)))
    (ys : List ((String × String) × (Nat × Option String)))
    (srcY : Nat) (method : String) : List (Nat × Nat × ℚ × String × String) :=
  ((keysOf xs).filter (fun k => k ∈ keysOf ys)).flatMap (fun k =>
    (groupGet xs k).flatMap (fun uv =>
      (groupGet ys k).map (fun ov =>
        (uv.1, ov.1, compute_similarity uv.2.1 ov.2 (some SRC_UPDB) (some srcY),
         method, "pending"))))

/-- The tier 2d UFO-search load: source 5 rows with a non-null date,
city/state parsed out of the raw location text, grouped by
`(date[:10], city, state or '')` (the parser never returns an empty
state, so the `or ''` fallback is vacuous); rows with an unparseable
location or empty city/date are skipped. -/
def loadUfosearch (db : DB) : List ((String × String × String) × (Nat × Option String)) :=
  (joinRows db).filterMap (fun sl =>
    if sl.1.source_db_id == SRC_UFOSEARCH && sl.1.date_event.isSome then
      let d := strTake 10 (sl.1.date_event.getD "")
      match parse_ufosearch_city_state (sl.2.raw_text.getD "") with
      | some cs =>
          if cs.1 = "" ∨ d = "" then none
          else some ((d, cs.1, cs.2), (sl.1.id, sl.1.description))
      | none => none
    else none)

/-- Model of `tier_2`: sub-phases 2a, 2b, 2c (UPDB against MUFON,
NUFORC, UFOCAT on the city-only key) and 2d (UFO-search against MUFON,
NUFORC, UFOCAT), inserting after each sub-phase in source order. -/
def tier_2 (db : DB) : DB :=
  let t1 := insert_candidates db.candidates
    (tierPairs (load_source_sightings db SRC_MUFON)
      (load_source_sightings db SRC_UFOCAT true) SRC_MUFON SRC_UFOCAT
      "tier2a_mufon_ufocat")
  let t2 := insert_candidates t1
    (tierPairs (load_source_sightings db SRC_NUFORC)
      (load_source_sightings db SRC_UFOCAT true) SRC_NUFORC SRC_UFOCAT
      "tier2b_nuforc_ufocat")
  let updb := load_source_sightings_city_only db SRC_UPDB (some "US")
  let t3 := insert_candidates t2
    (tierPairsCity updb (cityKey (load_source_sightings db SRC_MUFON))
      SRC_MUFON "tier2c_updb_mufon")
  let t4 := insert_candidates t3
    (tierPairsCity updb (cityKey (load_source_sightings db SRC_NUFORC))
      SRC_NUFORC "tier2c_updb_nuforc")
  let t5 := insert_candidates t4
    (tierPairsCity updb (cityKey (load_source_sightings db SRC_UFOCAT true))
      SRC_UFOCAT "tier2c_updb_ufocat")
  let geld := loadUfosearch db
  let t6 := insert_candidates t5
    (tierPairs geld (load_source_sightings db SRC_MUFON) SRC_UFOSEARCH SRC_MUFON
      "tier2d_ufosearch_mufon")
  let t7 := insert_candidates t6
    (tierPairs geld (load_source_sightings db SRC_NUFORC) SRC_UFOSEARCH SRC_NUFORC
      "tier2d_ufosearch_nuforc")
  let t8 := insert_candidates t7
    (tierPairs geld (load_source_sightings db SRC_UFOCAT true) SRC_UFOSEARCH SRC_UFOCAT
      "tier2d_ufosearch_ufocat")
  { db with candidates := t8 }

/-- Does a sighting pass tier 3's SQL date filter
(`date_event IS NOT NULL AND LENGTH(date_event) >= 10`)? -/
def dateOk10 (s : Sighting) : Bool :=
  match s.date_event with
  | some e => 10 ≤ e.data.length
  | none => false

/-- The truncated event date `SUBSTR(date_event, 1, 10)`. -/
def truncD (s : Sighting) : String := strTake 10 (s.date_event.getD "")

/-- Tier 3 target dates: truncated dates (over rows passing the date
filter) having records from at least 2 distinct sources and at most 20
records in total (the SQL `HAVING src_cnt >= 2 AND cnt <= 20`). -/
def targetDates (db : DB) : List String :=
  let rows := db.sightings.filter dateOk10
  (distinctsIn (rows.map truncD)).filter (fun d =>
    let drows := rows.filter (fun s => truncD s = d)
    decide (2 ≤ (distinctsIn (drows.map (fun s => s.source_db_id))).length) &&
      decide (drows.length ≤ 20))

/-- The canonical unordered pairs already present in the store
(tier 3's `existing_pairs` skip set). -/
def existingPairs (tbl : List Candidate) : List (Nat × Nat) :=
  tbl.map (fun r => (min r.sighting_id_a r.sighting_id_b,
                     max r.sighting_id_a r.sighting_id_b))

/-- Ordered index pairs `i < j` of a list (the double loop over sorted
source ids). -/
def pairsOf : List Nat → List (Nat × Nat)
  | [] => []
  | x :: t => t.map (fun y => (x, y)) ++ pairsOf t

/-- The candidate tuples generated by `tier_3`: for each target date,
every cross-source pair not already stored, kept when the
boilerplate-stripped token Jaccard reaches 0.25 and the full similarity
reaches 0.5. -/
def tier3Pairs (db : DB) : List (Nat × Nat × ℚ × String × String) :=
  let targets := targetDates db
  let existing := existingPairs db.candidates
  let rows := db.sightings.filter dateOk10
  let dates := distinctsIn ((rows.filter (fun s => truncD s ∈ targets)).map truncD)
  dates.flatMap (fun d =>
    let drows := rows.filter (fun s => truncD s = d)
    let srcIds := (distinctsIn (drows.map (fun s => s.source_db_id))).mergeSort (fun x y => x ≤ y)
    (pairsOf srcIds).flatMap (fun sp =>
      (drows.filter (fun s => s.source_db_id = sp.1)).flatMap (fun sa =>
        (drows.filter (fun s => s.source_db_id = sp.2)).filterMap (fun sb =>
          if (min sa.id sb.id, max sa.id sb.id) ∈ existing then none
          else
            let aClean := strip_nuforc (strip_mufon (sa.description.getD ""))
            let bClean := strip_nuforc (strip_mufon (sb.description.getD ""))
            if token_jaccard aClean bClean < 1 / 4 then none
            else
              let score := compute_similarity sa.description sb.description
                (some sp.1) (some sp.2)
              if 1 / 2 ≤ score then
                some (sa.id, sb.id, score, "tier3_desc_fuzzy", "pending")
              else none))))

/-- Model of `tier_3`: insert the generated candidates (the periodic
flush every 5000 dates splits the same tuple list into batches against
the same precomputed skip set, leaving the final table identical). -/
def tier_3 (db : DB) : DB :=
  { db with candidates := insert_candidates db.candidates (tier3Pairs db) }

/-!
## Theorems
-/

/-- Rows of the table whose unordered id pair is `(a, b)`. -/
def pairRows (tbl : List Candidate) (a b : Nat) : List Candidate :=
  tbl.filter (fun r =>
    (r.sighting_id_a = a && r.sighting_id_b = b) ||
      (r.sighting_id_a = b && r.sighting_id_b = a))

/-- C7: inserting a self-pair `(x, x)` leaves the store unchanged (zero
rows inserted, no error: the model is a total function). -/
theorem c7_self_pair_rejected (x : Nat) (sc : ℚ) (m st : String)
    (tbl : List Candidate) :
    insert_candidates tbl [(x, x, sc, m, st)] = tbl := by
  simp [insert_candidates]

lemma insert_single (tbl : List Candidate) (a b : Nat) (sc : ℚ) (m st : String) (hab : a ≠ b) :
    insert_candidates tbl [(a, b, sc, m, st)] =
      if tbl.any (fun r => r.sighting_id_a = min a b && r.sighting_id_b = max a b)
      then tbl else tbl ++ [⟨min a b, max a b, sc, m, st⟩] := by
  simp [insert_candidates, hab]

/-- C1: for distinct ids `a ≠ b` and a table holding no row for the
unordered pair, inserting `(a, b)` and then the pair again in either
order leaves exactly one row for the pair, canonicalized to
`sighting_id_a = min a b < sighting_id_b = max a b`, and the second
insertion is a no-op that keeps the first row's score and method.
First-call order is covered by the symmetry of the quantifiers
(instantiate with `a` and `b` swapped). -/
theorem c1_insert_pair_idempotent (a b : Nat) (s1 s2 : ℚ) (m1 m2 st1 st2 : String)
    (tbl : List Candidate) (hab : a ≠ b) (hT : pairRows tbl a b = []) :
    insert_candidates (insert_candidates tbl [(a, b, s1, m1, st1)]) [(b, a, s2, m2, st2)]
        = tbl ++ [⟨min a b, max a b, s1, m1, st1⟩] ∧
      insert_candidates (insert_candidates tbl [(a, b, s1, m1, st1)]) [(a, b, s2, m2, st2)]
        = tbl ++ [⟨min a b, max a b, s1, m1, st1⟩] ∧
      pairRows (tbl ++ [⟨min a b, max a b, s1, m1, st1⟩]) a b
        = [⟨min a b, max a b, s1, m1, st1⟩] ∧
      min a b < max a b := by
  have hor : (min a b = a ∧ max a b = b) ∨ (min a b = b ∧ max a b = a) := by omega
  have hnone : ∀ r ∈ tbl, ¬(r.sighting_id_a = min a b ∧ r.sighting_id_b = max a b) := by
    intro r hr hcon
    have h2 := List.filter_eq_nil_iff.mp hT r hr
    simp only [Bool.or_eq_true, Bool.and_eq_true, decide_eq_true_eq, not_or, not_and] at h2
    rcases hor with ⟨h3, h4⟩ | ⟨h3, h4⟩
    · exact h2.1 (h3 ▸ hcon.1) (h4 ▸ hcon.2)
    · exact h2.2 (h3 ▸ hcon.1) (h4 ▸ hcon.2)
  have hanyT : (tbl.any fun r =>
      r.sighting_id_a = min a b && r.sighting_id_b = max a b) = false := by
    rw [List.any_eq_false]
    intro r hr
    simpa using hnone r hr
  have hfirst : insert_candidates tbl [(a, b, s1, m1, st1)]
      = tbl ++ [⟨min a b, max a b, s1, m1, st1⟩] := by
    rw [insert_single tbl a b s1 m1 st1 hab, hanyT]
    simp
  have hany2 : ((tbl ++ ([⟨min a b, max a b, s1, m1, st1⟩] : List Candidate)).any fun r =>
      r.sighting_id_a = min a b && r.sighting_id_b = max a b) = true := by
    simp [List.any_append]
  refine ⟨?_, ?_, ?_, by omega⟩
  · rw [hfirst, insert_single _ b a s2 m2 st2 (Ne.symm hab)]
    rw [Nat.min_comm b a, Nat.max_comm b a, hany2]
    simp
  · rw [hfirst, insert_single _ a b s2 m2 st2 hab]
    rw [hany2]
    simp
  · simp only [pairRows, List.filter_append]
    rw [show List.filter _ tbl = [] from hT]
    rcases hor with ⟨h3, h4⟩ | ⟨h3, h4⟩ <;>
      simp [List.filter, h3, h4]

/-- C1 witness: concrete instantiation (ids 7 and 3, empty table). -/
theorem c1_witness :
    (7 : Nat) ≠ 3 ∧ pairRows [] 7 3 = [] ∧
      (insert_candidates (insert_candidates [] [(7, 3, 9/10, "m1", "pending")])
          [(3, 7, 1/10, "m2", "x")]
        = [] ++ [⟨min 7 3, max 7 3, 9/10, "m1", "pending"⟩] ∧
      insert_candidates (insert_candidates [] [(7, 3, 9/10, "m1", "pending")])
          [(7, 3, 1/10, "m2", "x")]
        = [] ++ [⟨min 7 3, max 7 3, 9/10, "m1", "pending"⟩] ∧
      pairRows ([] ++ [⟨min 7 3, max 7 3, 9/10, "m1", "pending"⟩]) 7 3
        = [⟨min 7 3, max 7 3, 9/10, "m1", "pending"⟩] ∧
      min 7 3 < max 7 3) :=
  ⟨by decide, rfl,
    c1_insert_pair_idempotent 7 3 (9/10) (1/10) "m1" "m2" "pending" "x" [] (by decide) rfl⟩

/-- C9: no tier modifies the `sighting` or `location` tables; the only
write is the insertion of `duplicate_candidate` rows. -/
theorem c9_tiers_read_only (db : DB) :
    ((tier_1a db).sightings = db.sightings ∧ (tier_1a db).locations = db.locations) ∧
      ((tier_2 db).sightings = db.sightings ∧ (tier_2 db).locations = db.locations) ∧
      ((tier_3 db).sightings = db.sightings ∧ (tier_3 db).locations = db.locations) :=
  ⟨⟨rfl, rfl⟩, ⟨rfl, rfl⟩, ⟨rfl, rfl⟩⟩

/-- C8 counterexample: neither stripping function is idempotent.  A
NUFORC header whose remainder starts with another NUFORC header is
stripped once per application, and likewise for the MUFON boilerplate:
a second application strips further. -/
theorem c8_counterexample :
    strip_nuforc (strip_nuforc
        "NUFORC UFO Sighting 123 NUFORC UFO Sighting 456 hi") ≠
      strip_nuforc "NUFORC UFO Sighting 123 NUFORC UFO Sighting 456 hi" ∧
    strip_mufon (strip_mufon
        "Submitted by razor via e-mail Investigator Note: Submitted by razor via e-mail Investigator Note: hello") ≠
      strip_mufon
        "Submitted by razor via e-mail Investigator Note: Submitted by razor via e-mail Investigator Note: hello" := by
  constructor
  · decide
  · decide

/-- C8 amended: the stripping functions are idempotent on every input
whose stripped form no longer triggers the boilerplate guard — for
NUFORC, the result does not start with the literal header; for MUFON,
the result does not contain the marker in its first 60 characters.  (In
general a second application can strip a further embedded header, as
the counterexample shows.) -/
theorem c8_strip_idempotent_amended (x y : String)
    (hx : ¬(strip_nuforc x).data.take 19 = "NUFORC UFO Sighting".data)
    (hy : listContains ((strip_mufon y).data.take 60) mufonMarker = false) :
    strip_nuforc (strip_nuforc x) = strip_nuforc x ∧
      strip_mufon (strip_mufon y) = strip_mufon y := by
  constructor
  · by_cases h : strip_nuforc x = ""
    · rw [h]
      simp [strip_nuforc]
    · rw [strip_nuforc, if_neg h, if_neg hx]
  · by_cases h : strip_mufon y = ""
    · rw [h]
      simp [strip_mufon]
    · rw [strip_mufon, if_neg h, hy]
      simp

/-- C8 amended witness: concrete headerless strings. -/
theorem c8_witness :
    (¬(strip_nuforc "hello").data.take 19 = "NUFORC UFO Sighting".data) ∧
      listContains ((strip_mufon "world").data.take 60) mufonMarker = false ∧
      (strip_nuforc (strip_nuforc "hello") = strip_nuforc "hello" ∧
        strip_mufon (strip_mufon "world") = strip_mufon "world") :=
  ⟨by decide, by decide, c8_strip_idempotent_amended "hello" "world" (by decide) (by decide)⟩


/-- Valid small code points round-trip through `Char.ofNat`. -/
lemma char_ofNat_toNat (n : Nat) (h : n < 55296) : (Char.ofNat n).toNat = n := by
  have hv : n.isValidChar := Or.inl h
  simp [Char.ofNat, hv, Char.toNat, Char.ofNatAux, UInt32.toNat, BitVec.toNat_ofNatLt]

/-- ASCII uppercasing is idempotent. -/
lemma char_toUpper_idem (c : Char) : c.toUpper.toUpper = c.toUpper := by
  by_cases h : c.toNat ≥ 97 ∧ c.toNat ≤ 122
  · have h1 : c.toUpper = Char.ofNat (c.toNat - 32) := by
      simp only [Char.toUpper]
      rw [if_pos h]
    have h2 : (Char.ofNat (c.toNat - 32)).toNat = c.toNat - 32 :=
      char_ofNat_toNat _ (by omega)
    rw [h1]
    simp only [Char.toUpper]
    rw [h2, if_neg (by omega)]
  · have h1 : c.toUpper = c := by
      simp only [Char.toUpper]
      rw [if_neg h]
    rw [h1, h1]

/-- A list is fixed by `map f` when `f` fixes each of its members. -/
lemma map_eq_self_of_mem {f : Char → Char} {l : List Char}
    (h : ∀ c ∈ l, f c = c) : l.map f = l := by
  induction l with
  | nil => rfl
  | cons c t ih => simp [h c (by simp), ih (fun x hx => h x (by simp [hx]))]

/-- The head surviving `dropWhile` fails the predicate. -/
lemma head_dropWhile_not (p : Char → Bool) (l : List Char) (c : Char)
    (h : (l.dropWhile p).head? = some c) : p c = false := by
  induction l with
  | nil => simp [List.dropWhile] at h
  | cons d t ih =>
      rw [List.dropWhile_cons] at h
      by_cases hp : p d = true
      · rw [if_pos hp] at h
        exact ih h
      · rw [if_neg hp] at h
        simp only [List.head?_cons, Option.some.injEq] at h
        subst h
        simpa using hp

/-- A list whose head fails the predicate is fixed by `dropWhile`. -/
lemma dropWhile_eq_self_of_head (p : Char → Bool) (l : List Char)
    (h : ∀ c, l.head? = some c → p c = false) : l.dropWhile p = l := by
  cases l with
  | nil => rfl
  | cons d t =>
      rw [List.dropWhile_cons, if_neg]
      simp [h d rfl]

/-- `pyStrip` output is an infix of the input. -/
lemma pyStrip_isInfix (l : List Char) : pyStrip l <:+: l := by
  unfold pyStrip
  have h1 : (l.dropWhile isPySpace) <:+ l := List.dropWhile_suffix _
  have h2 : ((l.dropWhile isPySpace).reverse.dropWhile isPySpace).reverse
      <+: l.dropWhile isPySpace := by
    obtain ⟨pre, hpre⟩ :=
      List.dropWhile_suffix (l := (l.dropWhile isPySpace).reverse) (p := isPySpace)
    refine ⟨pre.reverse, ?_⟩
    rw [← List.reverse_append, hpre, List.reverse_reverse]
  exact h2.isInfix.trans h1.isInfix

/-- Members of the stripped list are members of the original. -/
lemma mem_pyStrip {c : Char} {l : List Char} (h : c ∈ pyStrip l) : c ∈ l :=
  (pyStrip_isInfix l).subset h

/-- The stripped list has no leading whitespace. -/
lemma pyStrip_noLead (l : List Char) (c : Char)
    (h : (pyStrip l).head? = some c) : isPySpace c = false := by
  unfold pyStrip at h
  rw [List.head?_reverse] at h
  have hne : (l.dropWhile isPySpace).reverse.dropWhile isPySpace ≠ [] := by
    intro he
    rw [he] at h
    simp at h
  obtain ⟨pre, hpre⟩ :=
    List.dropWhile_suffix (l := (l.dropWhile isPySpace).reverse) (p := isPySpace)
  have hlast : ((l.dropWhile isPySpace).reverse.dropWhile isPySpace).getLast? =
      (l.dropWhile isPySpace).reverse.getLast? := by
    conv_rhs => rw [← hpre]
    exact (List.getLast?_append_of_ne_nil _ hne).symm
  rw [hlast, List.getLast?_reverse] at h
  exact head_dropWhile_not _ _ _ h

/-- The stripped list has no trailing whitespace. -/
lemma pyStrip_noTrail (l : List Char) (c : Char)
    (h : (pyStrip l).getLast? = some c) : isPySpace c = false := by
  unfold pyStrip at h
  rw [List.getLast?_reverse] at h
  exact head_dropWhile_not _ _ _ h

/-- A list with no leading and no trailing whitespace is fixed by
`pyStrip`. -/
lemma pyStrip_eq_self (l : List Char)
    (h1 : ∀ c, l.head? = some c → isPySpace c = false)
    (h2 : ∀ c, l.getLast? = some c → isPySpace c = false) : pyStrip l = l := by
  unfold pyStrip
  rw [dropWhile_eq_self_of_head _ _ h1]
  rw [dropWhile_eq_self_of_head _ _ (fun c hc => h2 c (by rwa [List.head?_reverse] at hc))]
  rw [List.reverse_reverse]


/-- Inside a run (`prevWs = true`), the collapsed output never starts
with whitespace. -/
lemma collapseAux_true_head (t : List Char) (y : Char)
    (hy : (collapseAux t true).head? = some y) : isPySpace y = false := by
  induction t with
  | nil => simp [collapseAux] at hy
  | cons c u ih =>
      rw [collapseAux] at hy
      by_cases h : isPySpace c = true
      · rw [if_pos h, if_pos rfl] at hy
        exact ih hy
      · rw [if_neg h] at hy
        simp only [List.head?_cons, Option.some.injEq] at hy
        subst hy
        simpa using h

/-- Head of the collapsed list: a whitespace head becomes a space. -/
lemma collapseWs_head (l : List Char) :
    (collapseWs l).head? = l.head?.map (fun c => if isPySpace c then ' ' else c) := by
  cases l with
  | nil => rfl
  | cons c t =>
      rw [collapseWs, collapseAux]
      by_cases h : isPySpace c = true
      · rw [if_pos h, if_neg (by simp)]
        simp [h]
      · rw [if_neg h]
        simp only [Bool.not_eq_true] at h
        simp [h]

/-- Characters of the collapsed list: a space or an original member. -/
lemma mem_collapseAux (l : List Char) :
    ∀ (b : Bool), ∀ c ∈ collapseAux l b, c = ' ' ∨ c ∈ l := by
  induction l with
  | nil =>
      intro b c hc
      simp [collapseAux] at hc
  | cons d t ih =>
      intro b c hc
      rw [collapseAux] at hc
      by_cases h : isPySpace d = true
      · rw [if_pos h] at hc
        cases b with
        | true =>
            rw [if_pos rfl] at hc
            rcases ih true c hc with h2 | h2
            · exact Or.inl h2
            · exact Or.inr (List.mem_cons_of_mem _ h2)
        | false =>
            rw [if_neg (by simp)] at hc
            rcases List.mem_cons.mp hc with h2 | h2
            · exact Or.inl h2
            · rcases ih true c h2 with h3 | h3
              · exact Or.inl h3
              · exact Or.inr (List.mem_cons_of_mem _ h3)
      · rw [if_neg h] at hc
        rcases List.mem_cons.mp hc with h2 | h2
        · exact Or.inr (h2 ▸ List.mem_cons_self _ _)
        · rcases ih false c h2 with h3 | h3
          · exact Or.inl h3
          · exact Or.inr (List.mem_cons_of_mem _ h3)

/-- Characters of the collapsed list: a space or an original member. -/
lemma mem_collapseWs (l : List Char) : ∀ c ∈ collapseWs l, c = ' ' ∨ c ∈ l :=
  mem_collapseAux l false

/-- All whitespace characters of the collapsed list are spaces. -/
lemma collapseAux_ws_space (l : List Char) :
    ∀ (b : Bool), ∀ c ∈ collapseAux l b, isPySpace c = true → c = ' ' := by
  induction l with
  | nil =>
      intro b c hc
      simp [collapseAux] at hc
  | cons d t ih =>
      intro b c hc hw
      rw [collapseAux] at hc
      by_cases h : isPySpace d = true
      · rw [if_pos h] at hc
        cases b with
        | true =>
            rw [if_pos rfl] at hc
            exact ih true c hc hw
        | false =>
            rw [if_neg (by simp)] at hc
            rcases List.mem_cons.mp hc with h2 | h2
            · exact h2
            · exact ih true c h2 hw
      · rw [if_neg h] at hc
        rcases List.mem_cons.mp hc with h2 | h2
        · exact absurd (h2 ▸ hw) (by simpa using h)
        · exact ih false c h2 hw

/-- All whitespace characters of the collapsed list are spaces. -/
lemma collapseWs_ws_space (l : List Char) :
    ∀ c ∈ collapseWs l, isPySpace c = true → c = ' ' :=
  collapseAux_ws_space l false

/-- The collapsed list has no two adjacent whitespace characters. -/
lemma collapseAux_chain (l : List Char) :
    ∀ (b : Bool), (collapseAux l b).Chain'
      (fun a c => ¬(isPySpace a = true ∧ isPySpace c = true)) := by
  induction l with
  | nil =>
      intro b
      rw [collapseAux]
      exact List.chain'_nil
  | cons d t ih =>
      intro b
      rw [collapseAux]
      by_cases h : isPySpace d = true
      · rw [if_pos h]
        cases b with
        | true =>
            rw [if_pos rfl]
            exact ih true
        | false =>
            rw [if_neg (by simp)]
            rw [List.chain'_cons']
            refine ⟨?_, ih true⟩
            intro y hy hcon
            rw [collapseAux_true_head t y (Option.mem_def.mp hy)] at hcon
            simp at hcon
      · rw [if_neg h]
        rw [List.chain'_cons']
        refine ⟨?_, ih false⟩
        intro y _ hcon
        exact absurd hcon.1 (by simpa using h)

/-- The collapsed list has no two adjacent whitespace characters. -/
lemma collapseWs_chain (l : List Char) :
    (collapseWs l).Chain' (fun a c => ¬(isPySpace a = true ∧ isPySpace c = true)) :=
  collapseAux_chain l false

/-- A list whose whitespace is single interior spaces is fixed by
`collapseWs`. -/
lemma collapseWs_eq_self (l : List Char)
    (h1 : ∀ c ∈ l, isPySpace c = true → c = ' ')
    (h2 : l.Chain' (fun a c => ¬(isPySpace a = true ∧ isPySpace c = true))) :
    collapseWs l = l := by
  induction l with
  | nil => rfl
  | cons d t ih =>
      rw [collapseWs, collapseAux]
      by_cases h : isPySpace d = true
      · rw [if_pos h, if_neg (by simp)]
        have hds : d = ' ' := h1 d (List.mem_cons_self _ _) h
        have haux : collapseAux t true = collapseAux t false := by
          cases t with
          | nil => rfl
          | cons e u =>
              have hne : isPySpace e = false := by
                have hcc := (List.chain'_cons'.mp h2).1 e (by simp)
                by_contra hcw
                simp only [Bool.not_eq_false] at hcw
                exact hcc ⟨h, hcw⟩
              rw [collapseAux, collapseAux]
              rw [if_neg (by simp [hne]), if_neg (by simp [hne])]
        rw [haux]
        have := ih (fun c hc hw => h1 c (List.mem_cons_of_mem _ hc) hw)
          (List.chain'_cons'.mp h2).2
        rw [collapseWs] at this
        rw [this, hds]
      · rw [if_neg h]
        have := ih (fun c hc hw => h1 c (List.mem_cons_of_mem _ hc) hw)
          (List.chain'_cons'.mp h2).2
        rw [collapseWs] at this
        rw [this]

end UfoDedup
namespace UfoDedup

/-- Last element of a list extending a nonempty suffix. -/
lemma getLast_of_suffix {l2 l : List Char} (h : l2 <:+ l) (hne : l2 ≠ []) :
    l.getLast? = l2.getLast? := by
  obtain ⟨pre, hpre⟩ := h
  rw [← hpre]
  exact List.getLast?_append_of_ne_nil _ hne

/-- Members of `parenSub l` are members of `l`. -/
lemma mem_parenSub {c : Char} {l : List Char} (h : c ∈ parenSub l) : c ∈ l := by
  unfold parenSub at h
  split at h
  · exact (List.take_sublist _ _).subset h
  · exact h

/-- Members of `punctSub l` are members of `l` or the newline kept by a
before-final-newline match. -/
lemma mem_punctSub {c : Char} {l : List Char} (h : c ∈ punctSub l) :
    c ∈ l ∨ c = '\n' := by
  unfold punctSub at h
  split at h
  · split at h
    · exact Or.inl ((List.take_sublist _ _).subset h)
    · rcases List.mem_append.mp h with h2 | h2
      · exact Or.inl ((List.take_sublist _ _).subset h2)
      · simp at h2
        exact Or.inr h2
  · exact Or.inl h

/-- A successful paren match forces the string to end in `)` or
whitespace. -/
lemma parenMatchAt_last (l : List Char) (i : Nat) (h : parenMatchAt l i = true) :
    ∃ c, l.getLast? = some c ∧ (c = ')' ∨ isPySpace c = true) := by
  unfold parenMatchAt at h
  cases hm : (l.drop i).dropWhile isPySpace with
  | nil =>
      rw [hm] at h
      simp at h
  | cons c0 t =>
      rw [hm] at h
      simp only [Bool.and_eq_true, List.any_eq_true, List.mem_range,
        decide_eq_true_eq] at h
      obtain ⟨-, j, hj, hrest⟩ := h
      have hgd : t.getD j ' ' = ')' := by
        have := hrest.1.1
        simpa using this
      have hws : ∀ x ∈ t.drop (j + 1), isPySpace x = true := by
        have := hrest.2
        simpa using this
      have htne : t ≠ [] := by
        intro he
        rw [he] at hj
        simp at hj
      have hsuf : c0 :: t <:+ l := by
        rw [← hm]
        exact (List.dropWhile_suffix _).trans (List.drop_suffix _ _)
      have hlast : l.getLast? = t.getLast? := by
        rw [getLast_of_suffix hsuf (by simp)]
        exact getLast_of_suffix ⟨[c0], rfl⟩ htne
      cases hd : t.drop (j + 1) with
      | nil =>
          have hjlen : j + 1 = t.length := by
            have := List.drop_eq_nil_iff.mp hd
            omega
          refine ⟨')', ?_, Or.inl rfl⟩
          rw [hlast, List.getLast?_eq_getElem?]
          have hj1 : t.length - 1 = j := by omega
          rw [hj1, List.getElem?_eq_getElem hj, ← List.getD_eq_getElem t ' ' hj, hgd]
      | cons d r =>
          have hsuf2 : d :: r <:+ t := by
            rw [← hd]
            exact List.drop_suffix _ _
          have hlast2 : t.getLast? = (d :: r).getLast? :=
            getLast_of_suffix hsuf2 (by simp)
          obtain ⟨e, he⟩ : ∃ e, (d :: r).getLast? = some e :=
            ⟨(d :: r).getLast (by simp), List.getLast?_eq_getLast _ _⟩
          refine ⟨e, by rw [hlast, hlast2, he], Or.inr ?_⟩
          exact hws e (hd ▸ List.mem_of_mem_getLast? he)

/-- A successful punct match forces the string to end in punctuation or
whitespace. -/
lemma punctMatchAt_last (l : List Char) (i : Nat) (h : punctMatchAt l i = true) :
    ∃ c, l.getLast? = some c ∧ (isPunctChar c = true ∨ isPySpace c = true) := by
  unfold punctMatchAt at h
  simp only [Bool.and_eq_true, Bool.or_eq_true, decide_eq_true_eq] at h
  obtain ⟨hne, hcase⟩ := h
  have hlast : l.getLast? = (l.drop i).getLast? :=
    getLast_of_suffix (List.drop_suffix _ _) hne
  rcases hcase with hall | hnl
  · obtain ⟨e, he⟩ : ∃ e, (l.drop i).getLast? = some e :=
      ⟨(l.drop i).getLast hne, List.getLast?_eq_getLast _ _⟩
    refine ⟨e, by rw [hlast, he], Or.inl ?_⟩
    exact List.all_eq_true.mp hall e (List.mem_of_mem_getLast? he)
  · refine ⟨'\n', ?_, Or.inr (by decide)⟩
    rw [hlast]
    have := hnl.1.1
    simpa using this

/-- `parenSub` fixes a list that does not end in `)` or whitespace. -/
lemma parenSub_eq_self (l : List Char)
    (h : ∀ c, l.getLast? = some c → c ≠ ')' ∧ isPySpace c = false) :
    parenSub l = l := by
  unfold parenSub
  rw [List.find?_eq_none.mpr]
  intro i _
  simp only [Bool.not_eq_true]
  by_contra hp
  simp only [Bool.not_eq_false] at hp
  obtain ⟨c, hc, hor⟩ := parenMatchAt_last l i hp
  rcases hor with h2 | h2
  · exact (h c hc).1 h2
  · rw [(h c hc).2] at h2
    simp at h2

/-- `punctSub` fixes a list that does not end in punctuation or
whitespace. -/
lemma punctSub_eq_self (l : List Char)
    (h : ∀ c, l.getLast? = some c → isPunctChar c = false ∧ isPySpace c = false) :
    punctSub l = l := by
  unfold punctSub
  rw [List.find?_eq_none.mpr]
  intro i _
  simp only [Bool.not_eq_true]
  by_contra hp
  simp only [Bool.not_eq_false] at hp
  obtain ⟨c, hc, hor⟩ := punctMatchAt_last l i hp
  rcases hor with h2 | h2
  · rw [(h c hc).1] at h2
    simp at h2
  · rw [(h c hc).2] at h2
    simp at h2

end UfoDedup
namespace UfoDedup

/-- The normalization pipeline is idempotent on inputs whose normal
form does not end in `)` or trailing punctuation. -/
lemma normCityCore_idem (s : List Char)
    (hlast : ∀ c, (normCityCore s).getLast? = some c →
      c ≠ ')' ∧ isPunctChar c = false) :
    normCityCore (normCityCore s) = normCityCore s := by
  have hw : normCityCore s = pyStrip (collapseWs (punctSub (parenSub ((pyStrip s).map Char.toUpper)))) := rfl
  set z := punctSub (parenSub ((pyStrip s).map Char.toUpper)) with hz
  set w := pyStrip (collapseWs z) with hwdef
  have f1 : ∀ c, w.head? = some c → isPySpace c = false := fun c => pyStrip_noLead _ c
  have f2 : ∀ c, w.getLast? = some c → isPySpace c = false := fun c => pyStrip_noTrail _ c
  have f3 : pyStrip w = w := pyStrip_eq_self w f1 f2
  have f4 : w.map Char.toUpper = w := by
    apply map_eq_self_of_mem
    intro c hc
    rcases mem_collapseWs z c (mem_pyStrip hc) with h2 | h2
    · rw [h2]
      decide
    · rcases mem_punctSub h2 with h3 | h3
      · rcases List.mem_map.mp (mem_parenSub h3) with ⟨c', -, hc'⟩
        rw [← hc']
        exact char_toUpper_idem c'
      · rw [h3]
        decide
  have f5 : parenSub w = w :=
    parenSub_eq_self w (fun c hc => ⟨(hlast c hc).1, f2 c hc⟩)
  have f6 : punctSub w = w :=
    punctSub_eq_self w (fun c hc => ⟨(hlast c hc).2, f2 c hc⟩)
  have f7 : collapseWs w = w := by
    apply collapseWs_eq_self
    · intro c hc hws
      exact collapseWs_ws_space z c (mem_pyStrip hc) hws
    · exact List.Chain'.infix (collapseWs_chain z) (pyStrip_isInfix _)
  show normCityCore w = w
  unfold normCityCore
  rw [f3, f4, f5, f6, f7, f3]

/-- C5 counterexample: `normalize_city` is not idempotent.  Stripping
the trailing `?` of `"A (B)?"` exposes a trailing parenthetical that
only a second pass removes. -/
theorem c5_counterexample :
    normalize_city (some (normalize_city (some "A (B)?"))) ≠
      normalize_city (some "A (B)?") := by
  decide

/-- C5 amended: `normalize_city` is idempotent on every input whose
normalized form does not end in `)` or in one of the trailing
punctuation characters `?`, `.`, `!` (on such inputs a second pass
strips further, as the counterexample shows); in particular it is
idempotent on null and empty input. -/
theorem c5_normalize_city_idempotent_amended (x : Option String)
    (h : ∀ c, (normalize_city x).data.getLast? = some c →
      c ≠ ')' ∧ isPunctChar c = false) :
    normalize_city (some (normalize_city x)) = normalize_city x := by
  match x with
  | none => simp [normalize_city]
  | some s =>
      by_cases hs : s = ""
      · subst hs
        simp [normalize_city]
      · have hval : normalize_city (some s) = ⟨normCityCore s.data⟩ := by
          simp [normalize_city, hs]
        by_cases hw : normCityCore s.data = []
        · rw [hval, hw]
          simp [normalize_city]
        · have hne : (⟨normCityCore s.data⟩ : String) ≠ "" := by
            intro he
            exact hw (congrArg String.data he)
          have hlast : ∀ c, (normCityCore s.data).getLast? = some c →
              c ≠ ')' ∧ isPunctChar c = false := by
            intro c hc
            apply h c
            rw [hval]
            exact hc
          have hstep : normalize_city (some (⟨normCityCore s.data⟩ : String)) =
              ⟨normCityCore (normCityCore s.data)⟩ := by
            simp only [normalize_city]
            rw [if_neg hne]
          rw [hval, hstep]
          exact congrArg String.mk (normCityCore_idem s.data hlast)

/-- C5 amended witness: a plain city name. -/
theorem c5_witness :
    (∀ c, (normalize_city (some "Springfield")).data.getLast? = some c →
      c ≠ ')' ∧ isPunctChar c = false) ∧
      normalize_city (some (normalize_city (some "Springfield"))) =
        normalize_city (some "Springfield") :=
  ⟨by decide, c5_normalize_city_idempotent_amended (some "Springfield") (by decide)⟩

end UfoDedup
namespace UfoDedup

/-- Character equality through code points. -/
lemma char_eq_iff_toNat (a b : Char) : a = b ↔ a.toNat = b.toNat := by
  constructor
  · intro h
    rw [h]
  · intro h
    exact Char.ext (UInt32.toNat.inj h)

/-- Code point of the uppercased character. -/
lemma toUpper_toNat (c : Char) :
    c.toUpper.toNat = if 97 ≤ c.toNat ∧ c.toNat ≤ 122 then c.toNat - 32 else c.toNat := by
  by_cases h : 97 ≤ c.toNat ∧ c.toNat ≤ 122
  · rw [if_pos h]
    have h1 : c.toUpper = Char.ofNat (c.toNat - 32) := by
      simp only [Char.toUpper]
      rw [if_pos (by omega)]
    rw [h1, char_ofNat_toNat _ (by omega)]
  · rw [if_neg h]
    have h1 : c.toUpper = c := by
      simp only [Char.toUpper]
      rw [if_neg (by omega)]
    rw [h1]

/-- Whitespace through code points. -/
lemma isPySpace_iff_toNat (c : Char) :
    isPySpace c = true ↔ (c.toNat = 32 ∨ c.toNat = 9 ∨ c.toNat = 10 ∨
      c.toNat = 13 ∨ c.toNat = 11 ∨ c.toNat = 12) := by
  unfold isPySpace
  simp only [Bool.or_eq_true, decide_eq_true_eq]
  constructor
  · intro h
    rcases h with ((((h | h) | h) | h) | h) | h <;>
      rw [char_eq_iff_toNat] at h <;> simp at h <;> omega
  · intro h
    rcases h with h | h | h | h | h | h
    · exact Or.inl (Or.inl (Or.inl (Or.inl (Or.inl (by rw [char_eq_iff_toNat]; simpa using h)))))
    · exact Or.inl (Or.inl (Or.inl (Or.inl (Or.inr (by rw [char_eq_iff_toNat]; simpa using h)))))
    · exact Or.inl (Or.inl (Or.inl (Or.inr (by rw [char_eq_iff_toNat]; simpa using h))))
    · exact Or.inl (Or.inl (Or.inr (by rw [char_eq_iff_toNat]; simpa using h)))
    · exact Or.inl (Or.inr (by rw [char_eq_iff_toNat]; simpa using h))
    · exact Or.inr (by rw [char_eq_iff_toNat]; simpa using h)

/-- Uppercasing does not change whitespace-ness. -/
lemma isPySpace_toUpper (c : Char) : isPySpace c.toUpper = isPySpace c := by
  by_cases h : isPySpace c = true
  · rw [h]
    rw [isPySpace_iff_toNat] at h ⊢
    rw [toUpper_toNat]
    rw [if_neg (by omega)]
    exact h
  · simp only [Bool.not_eq_true] at h
    rw [h]
    rw [Bool.eq_false_iff]
    intro hcon
    rw [isPySpace_iff_toNat, toUpper_toNat] at hcon
    rw [Bool.eq_false_iff] at h
    apply h
    rw [isPySpace_iff_toNat]
    by_cases h2 : 97 ≤ c.toNat ∧ c.toNat ≤ 122
    · rw [if_pos h2] at hcon
      omega
    · rw [if_neg h2] at hcon
      exact hcon

/-- Uppercasing reflects equality with a character that is neither an
uppercase nor a lowercase letter. -/
lemma toUpper_eq_special (c d : Char) (hd1 : ¬(65 ≤ d.toNat ∧ d.toNat ≤ 90))
    (hd2 : ¬(97 ≤ d.toNat ∧ d.toNat ≤ 122)) : c.toUpper = d ↔ c = d := by
  rw [char_eq_iff_toNat, char_eq_iff_toNat, toUpper_toNat]
  by_cases h : 97 ≤ c.toNat ∧ c.toNat ≤ 122
  · rw [if_pos h]
    omega
  · rw [if_neg h]

/-- Strip trailing whitespace only. -/
def rstripWs (l : List Char) : List Char := (l.reverse.dropWhile isPySpace).reverse

/-- Decompose a list into its right-stripped part and the trailing
whitespace run. -/
lemma rstripWs_decomp (l : List Char) :
    l = rstripWs l ++ (l.reverse.takeWhile isPySpace).reverse ∧
      ∀ ch ∈ (l.reverse.takeWhile isPySpace).reverse, isPySpace ch = true := by
  constructor
  · have := List.takeWhile_append_dropWhile isPySpace l.reverse
    have h2 := congrArg List.reverse this
    rw [List.reverse_append, List.reverse_reverse] at h2
    exact h2.symm
  · intro ch hch
    exact List.mem_takeWhile_imp (by simpa using hch)

/-- The right-stripped part has no trailing whitespace. -/
lemma rstripWs_last (l : List Char) (ch : Char)
    (h : (rstripWs l).getLast? = some ch) : isPySpace ch = false := by
  unfold rstripWs at h
  rw [List.getLast?_reverse] at h
  exact head_dropWhile_not _ _ _ h

/-- Members of the right-stripped part are members of the input. -/
lemma mem_rstripWs {ch : Char} {l : List Char} (h : ch ∈ rstripWs l) : ch ∈ l := by
  unfold rstripWs at h
  rw [List.mem_reverse] at h
  have := (List.dropWhile_sublist (l := l.reverse) (p := isPySpace)).subset h
  simpa using this

/-- Right-stripping commutes with a whitespace-preserving map. -/
lemma rstripWs_map (f : Char → Char) (hf : ∀ c, isPySpace (f c) = isPySpace c)
    (l : List Char) : rstripWs (l.map f) = (rstripWs l).map f := by
  unfold rstripWs
  rw [← List.map_reverse, List.dropWhile_map]
  rw [show (isPySpace ∘ f) = isPySpace from funext hf]
  rw [List.map_reverse]

/-- When the last character is not whitespace, `pyStrip` only strips
the front. -/
lemma pyStrip_of_last_not_ws (l : List Char) (ch : Char)
    (h1 : l.getLast? = some ch) (h2 : isPySpace ch = false) :
    pyStrip l = l.dropWhile isPySpace := by
  show rstripWs (l.dropWhile isPySpace) = l.dropWhile isPySpace
  have hd : l.dropWhile isPySpace ≠ [] := by
    intro he
    have hall := List.dropWhile_eq_nil_iff.mp he
    have hmem : ch ∈ l := List.mem_of_mem_getLast? h1
    rw [hall ch hmem] at h2
    simp at h2
  unfold rstripWs
  rw [dropWhile_eq_self_of_head]
  · rw [List.reverse_reverse]
  · intro c hc
    rw [List.head?_reverse] at hc
    rw [← getLast_of_suffix (List.dropWhile_suffix _) hd, h1] at hc
    cases hc
    exact h2

/-- `find?` over `range n`: the first index satisfying the predicate. -/
lemma find_range_eq_some (p : Nat → Bool) (n m : Nat) (hm : m < n) (hp : p m = true)
    (hmin : ∀ k, k < m → p k = false) : (List.range n).find? p = some m := by
  induction n with
  | zero => omega
  | succ n ih =>
      rw [List.range_succ, List.find?_append]
      by_cases h : m < n
      · rw [ih h]
        rfl
      · have hmn : m = n := by omega
        have hnone : (List.range n).find? p = none := by
          rw [List.find?_eq_none]
          intro k hk
          rw [hmin k (by simpa [hmn] using List.mem_range.mp hk)]
          simp
        rw [hnone]
        subst hmn
        simp [List.find?, hp]

end UfoDedup
namespace UfoDedup

/-- `parenSub` fixes a list containing no `(`. -/
lemma parenSub_no_paren (l : List Char) (h : ∀ ch ∈ l, ch ≠ '(') :
    parenSub l = l := by
  unfold parenSub
  rw [List.find?_eq_none.mpr]
  intro i _
  unfold parenMatchAt
  cases hm : (l.drop i).dropWhile isPySpace with
  | nil => simp
  | cons c0 t =>
      have hc0 : c0 ∈ l := by
        apply (List.drop_suffix i l).sublist.subset
        apply (List.dropWhile_sublist _).subset
        rw [hm]
        exact List.mem_cons_self _ _
      simp [h c0 hc0]

/-- The leftmost `\s*\(.*\)\s*$` match in `s ++ w ++ '(' :: rest`
(with `s` right-stripped and paren-free, `w` all whitespace, `rest`
newline-free and ending in `)`) starts exactly at the whitespace run
before the `(`, so the substitution cuts the list down to `s`. -/
lemma parenSub_take (s w rest : List Char)
    (hsLast : ∀ ch, s.getLast? = some ch → isPySpace ch = false)
    (hsNoPar : ∀ ch ∈ s, ch ≠ '(')
    (hw : ∀ ch ∈ w, isPySpace ch = true)
    (hrest : ∀ ch ∈ rest, ch ≠ '\n')
    (hlastR : rest.getLast? = some ')') :
    parenSub (s ++ (w ++ '(' :: rest)) = s := by
  have hrne : rest ≠ [] := by
    intro he
    rw [he] at hlastR
    simp at hlastR
  have hdropw : (w ++ '(' :: rest).dropWhile isPySpace = '(' :: rest := by
    rw [List.dropWhile_append]
    have h1 : w.dropWhile isPySpace = [] := by
      rw [List.dropWhile_eq_nil_iff]
      exact fun x hx => hw x hx
    rw [h1]
    simp only [List.isEmpty_nil, if_pos]
    rw [List.dropWhile_cons, if_neg (by decide)]
  have hrpos : 0 < rest.length := List.length_pos.mpr hrne
  have hmatch : parenMatchAt (s ++ (w ++ '(' :: rest)) s.length = true := by
    unfold parenMatchAt
    rw [List.drop_left, hdropw]
    rw [Bool.and_eq_true]
    refine ⟨by decide, ?_⟩
    rw [List.any_eq_true]
    refine ⟨rest.length - 1, List.mem_range.mpr (by omega), ?_⟩
    rw [Bool.and_eq_true, Bool.and_eq_true]
    refine ⟨⟨?_, ?_⟩, ?_⟩
    · have hj : rest.length - 1 < rest.length := by omega
      rw [decide_eq_true_eq, List.getD_eq_getElem _ _ hj]
      have := List.getLast?_eq_getElem? rest
      rw [hlastR, List.getElem?_eq_getElem hj] at this
      simpa using this.symm
    · rw [List.all_eq_true]
      intro ch hch
      simpa using hrest ch ((List.take_sublist _ _).subset hch)
    · rw [List.all_eq_true]
      intro ch hch
      have h0 : rest.drop (rest.length - 1 + 1) = [] := by
        rw [List.drop_eq_nil_iff]
        omega
      rw [h0] at hch
      simp at hch
  have hno : ∀ i, i < s.length → parenMatchAt (s ++ (w ++ '(' :: rest)) i = false := by
    intro i hi
    unfold parenMatchAt
    rw [List.drop_append_of_le_length (by omega)]
    rw [List.dropWhile_append]
    cases he : (s.drop i).dropWhile isPySpace with
    | nil =>
        exfalso
        have hall := List.dropWhile_eq_nil_iff.mp he
        have hsdne : s.drop i ≠ [] := by
          intro h2
          rw [List.drop_eq_nil_iff] at h2
          omega
        obtain ⟨e, helast⟩ : ∃ e, (s.drop i).getLast? = some e :=
          ⟨(s.drop i).getLast hsdne, List.getLast?_eq_getLast _ _⟩
        have hse : s.getLast? = some e := by
          rw [getLast_of_suffix (List.drop_suffix _ _) hsdne]
          exact helast
        have := hsLast e hse
        rw [hall e (List.mem_of_mem_getLast? helast)] at this
        simp at this
    | cons c0 t0 =>
        simp only [List.isEmpty_cons, if_neg, Bool.false_eq_true]
        have hc0 : c0 ∈ s := by
          apply (List.drop_suffix i s).sublist.subset
          apply (List.dropWhile_sublist _).subset
          rw [he]
          exact List.mem_cons_self _ _
        simp [hsNoPar c0 hc0]
  unfold parenSub
  rw [find_range_eq_some _ _ s.length
    (by simp [List.length_append]; omega) hmatch (fun k hk => hno k hk)]
  exact List.take_left _ _

end UfoDedup
namespace UfoDedup

/-- C10 counterexample: `.` does not match a newline, so for an input
that ends with `)` but has a newline after its first `(`, the
substitution matches at a later `(` and the first parenthetical
survives: the claim's "removes from the first `(` through the end"
fails. -/
theorem c10_counterexample :
    "A (B\nC (D)".data.getLast? = some ')' ∧
      '(' ∈ "A (B\nC (D)".data ∧
      normalize_city (some "A (B\nC (D)") = "A (B C" ∧
      '(' ∈ (normalize_city (some "A (B\nC (D)")).data ∧
      normalize_city (some "A (B\nC (D)") ≠
        normalize_city (some ⟨"A (B\nC (D)".data.takeWhile (fun c => decide (c ≠ '('))⟩) := by
  refine ⟨by decide, by decide, by decide, by decide, by decide⟩

/-- C10 amended: for an input that ends with `)`, contains `(`, and has
no newline at or after its first `(`, `normalize_city` removes
everything from the first `(` through the end — its result equals the
normalization of the prefix before the first `(`. -/
theorem c10_first_paren_removal_amended (x : String)
    (h1 : x.data.getLast? = some ')')
    (h2 : '(' ∈ x.data)
    (h3 : ∀ ch ∈ x.data.dropWhile (fun c => decide (c ≠ '(')), ch ≠ '\n') :
    normalize_city (some x) = normalize_city
      (some ⟨x.data.takeWhile (fun c => decide (c ≠ '('))⟩) := by
  set u := x.data with hu0
  set pre := u.takeWhile (fun c => decide (c ≠ '(')) with hpre0
  -- the dropped part starts with the first '('
  have hparne : u.dropWhile (fun c => decide (c ≠ '(')) ≠ [] := by
    intro he
    have hall := List.dropWhile_eq_nil_iff.mp he
    have := hall '(' h2
    simp at this
  obtain ⟨rest, hpar⟩ : ∃ rest, u.dropWhile (fun c => decide (c ≠ '(')) = '(' :: rest := by
    cases hm : u.dropWhile (fun c => decide (c ≠ '(')) with
    | nil => exact absurd hm hparne
    | cons c0 t =>
        have hc0 : (fun c => decide (c ≠ '(')) c0 = false :=
          head_dropWhile_not _ u c0 (by rw [hm]; rfl)
        simp only [decide_eq_false_iff_not, not_not] at hc0
        exact ⟨t, by rw [hc0]⟩
  have hu : u = pre ++ '(' :: rest := by
    rw [hpre0, ← hpar]
    exact (List.takeWhile_append_dropWhile _ _).symm
  have hrne : rest ≠ [] := by
    intro he
    subst he
    have hsuf : ['('] <:+ u := by
      rw [← hpar]
      exact List.dropWhile_suffix _
    have h4 := getLast_of_suffix hsuf (by simp)
    rw [h1] at h4
    simp at h4
  have hrlast : rest.getLast? = some ')' := by
    have hs1 : '(' :: rest <:+ u := by
      rw [← hpar]
      exact List.dropWhile_suffix _
    have hs2 : rest <:+ '(' :: rest := ⟨['('], rfl⟩
    have h4 := getLast_of_suffix hs1 (by simp)
    have h5 := getLast_of_suffix hs2 hrne
    rw [h1] at h4
    exact (h4.trans h5).symm
  have hrestNl : ∀ ch ∈ rest, ch ≠ '\n' := by
    intro ch hch
    apply h3
    rw [hpar]
    exact List.mem_cons_of_mem _ hch
  have hxne : x ≠ "" := by
    intro he
    have hue : u = [] := by
      rw [hu0, he]
    rw [hue] at h2
    simp at h2
  -- common right-hand pipeline value
  set preU := (pre.dropWhile isPySpace).map Char.toUpper with hpreU
  set preS := rstripWs preU with hpreS
  have hnopar : ∀ ch ∈ preS, ch ≠ '(' := by
    intro ch hch
    rcases List.mem_map.mp (mem_rstripWs hch) with ⟨ch', hch', hup⟩
    have hch'' : ch' ∈ pre := (List.dropWhile_sublist _).subset hch'
    have hne : ch' ≠ '(' := by
      have := List.mem_takeWhile_imp (hpre0 ▸ hch'')
      simpa using this
    rw [← hup]
    intro hcon
    exact hne ((toUpper_eq_special ch' '(' (by decide) (by decide)).mp hcon)
  have hLstrip : pyStrip u = u.dropWhile isPySpace :=
    pyStrip_of_last_not_ws u ')' h1 (by decide)
  have hdw : u.dropWhile isPySpace = pre.dropWhile isPySpace ++ '(' :: rest := by
    rw [hu, List.dropWhile_append]
    by_cases hemp : (pre.dropWhile isPySpace).isEmpty = true
    · rw [if_pos hemp]
      rw [List.isEmpty_iff] at hemp
      rw [hemp, List.nil_append, List.dropWhile_cons, if_neg (by decide)]
    · rw [if_neg hemp]
  have hmapup : (u.dropWhile isPySpace).map Char.toUpper =
      preU ++ '(' :: rest.map Char.toUpper := by
    rw [hdw, List.map_append, List.map_cons]
    rfl
  have hps : parenSub (preU ++ '(' :: rest.map Char.toUpper) = preS := by
    obtain ⟨hdec, hwv⟩ := rstripWs_decomp preU
    rw [show preU ++ '(' :: rest.map Char.toUpper =
        preS ++ ((preU.reverse.takeWhile isPySpace).reverse ++ '(' :: rest.map Char.toUpper) by
      rw [← List.append_assoc, ← hdec]]
    apply parenSub_take
    · exact rstripWs_last preU
    · exact hnopar
    · exact hwv
    · intro ch hch
      rcases List.mem_map.mp hch with ⟨ch', hch', hup⟩
      rw [← hup]
      intro hcon
      exact hrestNl ch' hch' ((toUpper_eq_special ch' '\n' (by decide) (by decide)).mp hcon)
    · rw [List.getLast?_map, hrlast]
      rfl
  have hL : normCityCore u = pyStrip (collapseWs (punctSub preS)) := by
    unfold normCityCore
    rw [hLstrip, hmapup, hps]
  have hLHS : normalize_city (some x) = ⟨normCityCore u⟩ := by
    simp only [normalize_city]
    rw [if_neg hxne]
  by_cases hpre : pre = []
  · -- everything before the '(' is empty: both sides normalize to ""
    have hpreUe : preU = [] := by
      rw [hpreU, hpre]
      rfl
    have hpreSe : preS = [] := by
      rw [hpreS, hpreUe]
      rfl
    have hLe : normCityCore u = [] := by
      rw [hL, hpreSe]
      rfl
    rw [hLHS, hLe, hpre]
    rfl
  · have hpne : (⟨pre⟩ : String) ≠ "" := by
      intro he
      exact hpre (congrArg String.data he)
    have hRstrip : (pyStrip pre).map Char.toUpper = preS := by
      show (rstripWs (pre.dropWhile isPySpace)).map Char.toUpper = preS
      rw [← rstripWs_map Char.toUpper isPySpace_toUpper]
    have hR : normCityCore pre = pyStrip (collapseWs (punctSub preS)) := by
      unfold normCityCore
      rw [hRstrip, parenSub_no_paren preS hnopar]
    have hRHS : normalize_city (some (⟨pre⟩ : String)) = ⟨normCityCore pre⟩ := by
      simp only [normalize_city]
      rw [if_neg hpne]
    rw [hLHS, hRHS]
    exact congrArg String.mk (hL.trans hR.symm)

/-- C10 amended witness: the claim's own double-parenthetical example. -/
theorem c10_witness :
    ("Springfield (North) (IL)".data.getLast? = some ')' ∧
      '(' ∈ "Springfield (North) (IL)".data ∧
      (∀ ch ∈ "Springfield (North) (IL)".data.dropWhile (fun c => decide (c ≠ '(')),
        ch ≠ '\n')) ∧
      normalize_city (some "Springfield (North) (IL)") = normalize_city
        (some ⟨"Springfield (North) (IL)".data.takeWhile (fun c => decide (c ≠ '('))⟩) ∧
      normalize_city (some "Springfield (North) (IL)") = "SPRINGFIELD" :=
  ⟨⟨by decide, by decide, by decide⟩,
    c10_first_paren_removal_amended "Springfield (North) (IL)"
      (by decide) (by decide) (by decide),
    by decide⟩

end UfoDedup
namespace UfoDedup

/-- Fold invariant preservation. -/
lemma foldl_inv {α β : Type} (f : β → α → β) (P : β → Prop) :
    ∀ (l : List α) (init : β), P init →
      (∀ b x, x ∈ l → P b → P (f b x)) → P (l.foldl f init) := by
  intro l
  induction l with
  | nil => intro init h _; exact h
  | cons a t ih =>
      intro init h hstep
      exact ih (f init a) (hstep init a (List.mem_cons_self _ _) h)
        (fun b x hx hb => hstep b x (List.mem_cons_of_mem _ hx) hb)

/-- Indexed fold invariant over `range'`. -/
lemma range'_foldl_inv {β : Type} (f : β → Nat → β) (P : Nat → β → Prop) :
    ∀ (n s : Nat) (init : β), P s init →
      (∀ r st, s ≤ r → r < s + n → P r st → P (r + 1) (f st r)) →
      P (s + n) ((List.range' s n).foldl f init) := by
  intro n
  induction n with
  | zero =>
      intro s init h _
      simpa using h
  | succ n ih =>
      intro s init h hstep
      rw [List.range'_succ, List.foldl_cons]
      have := ih (s + 1) (f init s) (hstep s init le_rfl (by omega) h)
        (fun r st hr hlt hp => hstep r st (by omega) (by omega) hp)
      rw [show s + 1 + n = s + (n + 1) by omega] at this
      exact this

/-- What `extBack` preserves: the block stays in range and its right
end `bi + bs`, `bj + bs` is unchanged. -/
lemma extBack_spec (a b : List Char) (alo blo : Nat) :
    ∀ (bi bj bs : Nat), alo ≤ bi → blo ≤ bj →
      alo ≤ (extBack a b alo blo bi bj bs).1 ∧
      blo ≤ (extBack a b alo blo bi bj bs).2.1 ∧
      (extBack a b alo blo bi bj bs).1 + (extBack a b alo blo bi bj bs).2.2 = bi + bs ∧
      (extBack a b alo blo bi bj bs).2.1 + (extBack a b alo blo bi bj bs).2.2 = bj + bs ∧
      bs ≤ (extBack a b alo blo bi bj bs).2.2 := by
  intro bi
  induction bi using Nat.strong_induction_on with
  | _ bi ih =>
      intro bj bs h1 h2
      rw [extBack]
      by_cases hg : alo < bi ∧ blo < bj ∧ a.get? (bi - 1) = b.get? (bj - 1)
      · rw [if_pos hg]
        have := ih (bi - 1) (by omega) (bj - 1) (bs + 1) (by omega) (by omega)
        refine ⟨this.1, this.2.1, ?_, ?_, by omega⟩
        · rw [this.2.2.1]
          omega
        · rw [this.2.2.2.1]
          omega
      · rw [if_neg hg]
        exact ⟨h1, h2, rfl, rfl, le_rfl⟩

/-- What `extFwd` preserves: the block start is unchanged and either
nothing was added or the grown block still fits the ranges. -/
lemma extFwd_spec (a b : List Char) (ahi bhi : Nat) :
    ∀ (fuel bi bj bs : Nat), ahi - (bi + bs) ≤ fuel →
      (extFwd a b ahi bhi bi bj bs).1 = bi ∧
      (extFwd a b ahi bhi bi bj bs).2.1 = bj ∧
      bs ≤ (extFwd a b ahi bhi bi bj bs).2.2 ∧
      ((extFwd a b ahi bhi bi bj bs).2.2 = bs ∨
        (bi + (extFwd a b ahi bhi bi bj bs).2.2 ≤ ahi ∧
          bj + (extFwd a b ahi bhi bi bj bs).2.2 ≤ bhi)) := by
  intro fuel
  induction fuel with
  | zero =>
      intro bi bj bs hf
      rw [extFwd]
      by_cases hg : bi + bs < ahi ∧ bj + bs < bhi ∧ a.get? (bi + bs) = b.get? (bj + bs)
      · omega
      · rw [if_neg hg]
        exact ⟨rfl, rfl, le_rfl, Or.inl rfl⟩
  | succ fuel ih =>
      intro bi bj bs hf
      rw [extFwd]
      by_cases hg : bi + bs < ahi ∧ bj + bs < bhi ∧ a.get? (bi + bs) = b.get? (bj + bs)
      · rw [if_pos hg]
        have := ih bi bj (bs + 1) (by omega)
        refine ⟨this.1, this.2.1, by omega, ?_⟩
        rcases this.2.2.2 with h | h
        · exact Or.inr (by omega)
        · exact Or.inr h
      · rw [if_neg hg]
        exact ⟨rfl, rfl, le_rfl, Or.inl rfl⟩

end UfoDedup
namespace UfoDedup

/-- Range/size bounds of the best block after the main double loop. -/
lemma flmMain_bounds (a b : List Char) (alo ahi blo bhi : Nat) :
    alo ≤ (flmMain a b alo ahi blo bhi).bi ∧
      blo ≤ (flmMain a b alo ahi blo bhi).bj ∧
      (((flmMain a b alo ahi blo bhi).bi + (flmMain a b alo ahi blo bhi).bs ≤ ahi ∧
        (flmMain a b alo ahi blo bhi).bj + (flmMain a b alo ahi blo bhi).bs ≤ bhi) ∨
       ((flmMain a b alo ahi blo bhi).bs = 0 ∧
        (flmMain a b alo ahi blo bhi).bi = alo ∧
        (flmMain a b alo ahi blo bhi).bj = blo)) := by
  have main := range'_foldl_inv (rowStep a b blo bhi)
    (fun r st =>
      (∀ x, st.j2 x ≤ r - alo) ∧ (∀ x, st.j2 x ≤ x + 1 - blo) ∧
        (alo ≤ st.bi ∧ blo ≤ st.bj ∧
          ((st.bi + st.bs ≤ ahi ∧ st.bj + st.bs ≤ bhi) ∨
            (st.bs = 0 ∧ st.bi = alo ∧ st.bj = blo))))
    (ahi - alo) alo ⟨fun _ => 0, alo, blo, 0⟩
    ⟨fun x => Nat.zero_le _, fun x => Nat.zero_le _, le_rfl, le_rfl, Or.inr ⟨rfl, rfl, rfl⟩⟩
    ?_
  · exact main.2.2
  · intro r st hr hlt hp
    unfold rowStep
    apply foldl_inv (colStep r st.j2)
      (fun m => (∀ x, m.j2 x ≤ r + 1 - alo) ∧ (∀ x, m.j2 x ≤ x + 1 - blo) ∧
        (alo ≤ m.bi ∧ blo ≤ m.bj ∧
          ((m.bi + m.bs ≤ ahi ∧ m.bj + m.bs ≤ bhi) ∨
            (m.bs = 0 ∧ m.bi = alo ∧ m.bj = blo))))
    · exact ⟨fun x => Nat.zero_le _, fun x => Nat.zero_le _, hp.2.2⟩
    · intro m j hj hm
      have hjr : blo ≤ j ∧ j < bhi := by
        have := List.of_mem_filter hj
        simp only [Bool.and_eq_true, decide_eq_true_eq] at this
        exact this
      have hk1 : (if j = 0 then 0 else st.j2 (j - 1)) + 1 ≤ r + 1 - alo := by
        by_cases h0 : j = 0
        · rw [if_pos h0]
          omega
        · rw [if_neg h0]
          have := hp.1 (j - 1)
          omega
      have hk2 : (if j = 0 then 0 else st.j2 (j - 1)) + 1 ≤ j + 1 - blo := by
        by_cases h0 : j = 0
        · rw [if_pos h0]
          omega
        · rw [if_neg h0]
          have := hp.2.1 (j - 1)
          omega
      simp only [colStep]
      by_cases hup : m.bs < (if j = 0 then 0 else st.j2 (j - 1)) + 1
      · rw [if_pos hup]
        refine ⟨?_, ?_, ?_, ?_, Or.inl ⟨?_, ?_⟩⟩
        · intro x
          by_cases hx : x = j
          · simp only [hx, if_pos rfl]
            exact hk1
          · simp only [if_neg hx]
            exact hm.1 x
        · intro x
          by_cases hx : x = j
          · simp only [hx, if_pos rfl]
            exact hk2
          · simp only [if_neg hx]
            exact hm.2.1 x
        · show alo ≤ r + 1 - ((if j = 0 then 0 else st.j2 (j - 1)) + 1)
          omega
        · show blo ≤ j + 1 - ((if j = 0 then 0 else st.j2 (j - 1)) + 1)
          omega
        · show r + 1 - ((if j = 0 then 0 else st.j2 (j - 1)) + 1) +
            ((if j = 0 then 0 else st.j2 (j - 1)) + 1) ≤ ahi
          omega
        · show j + 1 - ((if j = 0 then 0 else st.j2 (j - 1)) + 1) +
            ((if j = 0 then 0 else st.j2 (j - 1)) + 1) ≤ bhi
          omega
      · rw [if_neg hup]
        refine ⟨?_, ?_, hm.2.2⟩
        · intro x
          by_cases hx : x = j
          · simp only [hx, if_pos rfl]
            exact hk1
          · simp only [if_neg hx]
            exact hm.1 x
        · intro x
          by_cases hx : x = j
          · simp only [hx, if_pos rfl]
            exact hk2
          · simp only [if_neg hx]
            exact hm.2.1 x

/-- Bounds on the result of `find_longest_match`: the block lies inside
the requested ranges whenever it is nonempty. -/
lemma flm_bounds (a b : List Char) (alo ahi blo bhi : Nat) :
    alo ≤ (flm a b alo ahi blo bhi).1 ∧
      blo ≤ (flm a b alo ahi blo bhi).2.1 ∧
      (0 < (flm a b alo ahi blo bhi).2.2 →
        (flm a b alo ahi blo bhi).1 + (flm a b alo ahi blo bhi).2.2 ≤ ahi ∧
        (flm a b alo ahi blo bhi).2.1 + (flm a b alo ahi blo bhi).2.2 ≤ bhi) := by
  unfold flm
  have hm := flmMain_bounds a b alo ahi blo bhi
  set m := flmMain a b alo ahi blo bhi
  have hb := extBack_spec a b alo blo m.bi m.bj m.bs hm.1 hm.2.1
  set p := extBack a b alo blo m.bi m.bj m.bs
  have hf := extFwd_spec a b ahi bhi (ahi - (p.1 + p.2.2)) p.1 p.2.1 p.2.2 le_rfl
  set q := extFwd a b ahi bhi p.1 p.2.1 p.2.2
  refine ⟨by omega, by omega, ?_⟩
  intro hkpos
  rcases hf.2.2.2 with he | he
  · -- the forward extension added nothing
    rcases hm.2.2 with hc | hc
    · omega
    · -- main loop found nothing: then the back extension did not move either
      exfalso
      have : p.2.2 = 0 := by omega
      omega
  · omega

end UfoDedup
namespace UfoDedup

/-- The total matched length over a window never exceeds either window
size (fuel-indexed induction on the window measure). -/
lemma matchTotal_le_aux (a b : List Char) :
    ∀ (n alo ahi blo bhi : Nat), (ahi - alo) + (bhi - blo) ≤ n →
      matchTotal a b alo ahi blo bhi ≤ min (ahi - alo) (bhi - blo) := by
  intro n
  induction n using Nat.strong_induction_on with
  | _ n ih =>
    intro alo ahi blo bhi hn
    rw [matchTotal]
    rcases hflm : flm a b alo ahi blo bhi with ⟨i, j, k⟩
    dsimp only
    by_cases hg : 0 < k ∧ alo ≤ i ∧ i + k ≤ ahi ∧ blo ≤ j ∧ j + k ≤ bhi
    · rw [dif_pos hg]
      have hL : (if alo < i ∧ blo < j then matchTotal a b alo i blo j else 0)
          ≤ min (i - alo) (j - blo) := by
        split
        · next hc =>
            exact ih ((i - alo) + (j - blo)) (by omega) alo i blo j le_rfl
        · exact Nat.zero_le _
      have hR : (if i + k < ahi ∧ j + k < bhi then
            matchTotal a b (i + k) ahi (j + k) bhi else 0)
          ≤ min (ahi - (i + k)) (bhi - (j + k)) := by
        split
        · next hc =>
            exact ih ((ahi - (i + k)) + (bhi - (j + k))) (by omega)
              (i + k) ahi (j + k) bhi le_rfl
        · exact Nat.zero_le _
      omega
    · rw [dif_neg hg]
      exact Nat.zero_le _

/-- Closed form of the window bound. -/
lemma matchTotal_le (a b : List Char) (alo ahi blo bhi : Nat) :
    matchTotal a b alo ahi blo bhi ≤ min (ahi - alo) (bhi - blo) :=
  matchTotal_le_aux a b ((ahi - alo) + (bhi - blo)) alo ahi blo bhi le_rfl

/-- The ratio is nonnegative. -/
lemma seqRatio_nonneg (a b : List Char) : 0 ≤ seqRatio a b := by
  unfold seqRatio
  positivity

/-- The ratio is at most 1: twice the matched total is at most the sum
of the lengths. -/
lemma seqRatio_le_one (a b : List Char) : seqRatio a b ≤ 1 := by
  unfold seqRatio
  refine div_le_one_of_le₀ ?_ (by positivity)
  have h := matchTotal_le a b 0 a.length 0 b.length
  have h2 : 2 * matchTotal a b 0 a.length 0 b.length ≤ a.length + b.length := by
    omega
  exact_mod_cast h2

/-- Jaccard similarity is nonnegative. -/
lemma token_jaccard_nonneg (a b : String) : 0 ≤ token_jaccard a b := by
  simp only [token_jaccard]
  split
  · exact le_refl 0
  · split
    · exact le_refl 0
    · positivity

/-- Jaccard similarity is at most 1: the intersection is no larger than
the union. -/
lemma token_jaccard_le_one (a b : String) : token_jaccard a b ≤ 1 := by
  simp only [token_jaccard]
  split
  · exact zero_le_one
  · split
    · exact zero_le_one
    · refine div_le_one_of_le₀ ?_ (by positivity)
      exact_mod_cast Finset.card_le_card Finset.inter_subset_union

/-- Every branch of the scoring chain lands in [0, 1]. -/
lemma simScore_nonneg (a b : String) : 0 ≤ simScore a b := by
  unfold simScore
  split
  · exact le_refl 0
  · split
    · norm_num
    · split
      · exact token_jaccard_nonneg a b
      · exact seqRatio_nonneg _ _

/-- Every branch of the scoring chain is at most 1. -/
lemma simScore_le_one (a b : String) : simScore a b ≤ 1 := by
  unfold simScore
  split
  · exact zero_le_one
  · split
    · norm_num
    · split
      · next h => exact le_trans h.le (by norm_num)
      · exact seqRatio_le_one _ _

/-- C2: `compute_similarity` always returns a value in [0.0, 1.0] —
every return path (the null/empty guards, the 0.95 starts-with
shortcut, the Jaccard fast filter, and the SequenceMatcher ratio) is
bounded. -/
theorem c2_score_bounded (descA descB : Option String)
    (sourceA sourceB : Option Nat) :
    0 ≤ compute_similarity descA descB sourceA sourceB ∧
      compute_similarity descA descB sourceA sourceB ≤ 1 := by
  rcases descA with _ | da
  · refine ⟨?_, ?_⟩ <;> simp [compute_similarity]
  rcases descB with _ | db
  · refine ⟨?_, ?_⟩ <;> simp [compute_similarity]
  constructor
  · simp only [compute_similarity]
    split
    · exact le_refl 0
    · exact simScore_nonneg _ _
  · simp only [compute_similarity]
    split
    · exact zero_le_one
    · exact simScore_le_one _ _

end UfoDedup
namespace UfoDedup

/-- With no source id, the preprocessing is the identity. -/
lemma stripFor_none (d : String) : stripFor none d = d := rfl

/-- A Jaccard score is 0 whenever the token sets do not intersect. -/
lemma token_jaccard_eq_zero (a b : String)
    (h : (tokenSet a ∩ tokenSet b).card = 0) : token_jaccard a b = 0 := by
  simp only [token_jaccard]
  split
  · rfl
  · split
    · rfl
    · rw [h, Nat.cast_zero, zero_div]

/-- When neither string is empty and the shortcut fires, the score is
0.95. -/
lemma compute_similarity_shortcut (a b : String)
    (hne : ¬(a = "" ∨ b = ""))
    (hsc : startsWithShortcut a b = true) :
    compute_similarity (some a) (some b) none none = 19 / 20 := by
  simp only [compute_similarity]
  rw [if_neg hne, stripFor_none, stripFor_none]
  unfold simScore
  rw [if_neg hne, if_pos hsc]

/-- C4 counterexample: two 20-character prefixable strings whose token
sets are disjoint. The Jaccard score is 0 < 0.03, yet
`compute_similarity` returns 0.95 because the starts-with shortcut
runs before the Jaccard fast filter. -/
theorem c4_counterexample :
    token_jaccard "aaaaaaaaaaaaaaaaaaaa" "aaaaaaaaaaaaaaaaaaaab" < 3 / 100 ∧
      compute_similarity (some "aaaaaaaaaaaaaaaaaaaa")
          (some "aaaaaaaaaaaaaaaaaaaab") none none ≠
        token_jaccard "aaaaaaaaaaaaaaaaaaaa" "aaaaaaaaaaaaaaaaaaaab" := by
  have h0 : token_jaccard "aaaaaaaaaaaaaaaaaaaa" "aaaaaaaaaaaaaaaaaaaab" = 0 :=
    token_jaccard_eq_zero _ _ (by decide)
  have hc : compute_similarity (some "aaaaaaaaaaaaaaaaaaaa")
      (some "aaaaaaaaaaaaaaaaaaaab") none none = 19 / 20 :=
    compute_similarity_shortcut _ _ (by decide) (by decide)
  rw [h0, hc]
  norm_num

/-- C4 (amended): when neither string is empty and the starts-with
shortcut does not fire, a Jaccard score below 0.03 is returned
unmodified. -/
theorem c4_jaccard_fast_path_amended (a b : String)
    (hne : ¬(a = "" ∨ b = ""))
    (hsc : startsWithShortcut a b = false)
    (hj : token_jaccard a b < 3 / 100) :
    compute_similarity (some a) (some b) none none = token_jaccard a b := by
  simp only [compute_similarity]
  rw [if_neg hne, stripFor_none, stripFor_none]
  unfold simScore
  rw [if_neg hne, if_neg (by simp [hsc]), if_pos hj]

/-- C4 witness: concrete dissimilar short strings take the fast path. -/
theorem c4_witness :
    ¬(("cat" : String) = "" ∨ ("dog" : String) = "") ∧
      startsWithShortcut "cat" "dog" = false ∧
      token_jaccard "cat" "dog" < 3 / 100 ∧
      compute_similarity (some "cat") (some "dog") none none =
        token_jaccard "cat" "dog" :=
  ⟨by decide, by decide,
    by rw [token_jaccard_eq_zero "cat" "dog" (by decide)]; norm_num,
    c4_jaccard_fast_path_amended "cat" "dog" (by decide) (by decide)
      (by rw [token_jaccard_eq_zero "cat" "dog" (by decide)]; norm_num)⟩

end UfoDedup
namespace UfoDedup

/-- Eligibility of a position for the self-comparison analysis: inside
the window and holding a non-popular character. -/
def eligB (a : List Char) (lo hi x : Nat) : Bool :=
  decide (lo ≤ x) && decide (x < hi) && !popularB a (a.getD x ' ')

/-- Length of the maximal eligible run ending at `x`. -/
def eRun (a : List Char) (lo hi : Nat) : Nat → Nat
  | 0 => if eligB a lo hi 0 then 1 else 0
  | x + 1 => if eligB a lo hi (x + 1) then eRun a lo hi x + 1 else 0

/-- An ineligible position has run length 0. -/
lemma eRun_eq_zero (a : List Char) (lo hi x : Nat)
    (h : eligB a lo hi x = false) : eRun a lo hi x = 0 := by
  cases x <;> simp [eRun, h]

/-- The filtered occurrence list the main loop iterates over at row `i`
of the self comparison. -/
def jsSelf (a : List Char) (lo hi i : Nat) : List Nat :=
  (b2j a (a.getD i ' ')).filter (fun j => decide (lo ≤ j) && decide (j < hi))

/-- `rowStep` on the self comparison folds over `jsSelf`. -/
lemma rowStep_eq_jsSelf (a : List Char) (lo hi : Nat) (st : FlmSt) (i : Nat) :
    rowStep a a lo hi st i =
      (jsSelf a lo hi i).foldl (colStep i st.j2)
        ⟨fun _ => 0, st.bi, st.bj, st.bs⟩ := rfl

/-- Membership in the purged occurrence index. -/
lemma mem_b2j (b : List Char) (c : Char) (j : Nat) :
    j ∈ b2j b c ↔
      popularB b c = false ∧ j < b.length ∧ b.get? j = some c := by
  unfold b2j
  by_cases hp : popularB b c
  · rw [if_pos hp]
    simp [hp]
  · rw [if_neg hp]
    simp [List.mem_filter, List.mem_range, Bool.eq_false_iff, hp, and_assoc]

/-- Membership in the row list of the self comparison. -/
lemma mem_jsSelf (a : List Char) (lo hi i j : Nat) :
    j ∈ jsSelf a lo hi i ↔
      popularB a (a.getD i ' ') = false ∧ j < a.length ∧
        a.get? j = some (a.getD i ' ') ∧ lo ≤ j ∧ j < hi := by
  unfold jsSelf
  simp [List.mem_filter, mem_b2j, and_assoc]

/-- Every listed column is eligible. -/
lemma eligB_of_mem_jsSelf (a : List Char) (lo hi i j : Nat)
    (h : j ∈ jsSelf a lo hi i) : eligB a lo hi j = true := by
  rw [mem_jsSelf] at h
  obtain ⟨hp, hlen, hget, hlo, hhi⟩ := h
  have hc : a.getD j ' ' = a.getD i ' ' := by
    rw [List.getD_eq_getElem?_getD, ← List.get?_eq_getElem?, hget]
    rfl
  unfold eligB
  rw [hc, hp]
  simp [hlo, hhi]

/-- An eligible row index appears in its own row list. -/
lemma self_mem_jsSelf (a : List Char) (lo hi i : Nat) (h1 : lo ≤ i)
    (h2 : i < hi) (h3 : hi ≤ a.length)
    (hp : popularB a (a.getD i ' ') = false) : i ∈ jsSelf a lo hi i := by
  rw [mem_jsSelf]
  have hlen : i < a.length := by omega
  refine ⟨hp, hlen, ?_, h1, h2⟩
  rw [List.get?_eq_getElem?, List.getElem?_eq_getElem hlen,
    List.getD_eq_getElem?_getD, List.getElem?_eq_getElem hlen]
  rfl

/-- A popular row character empties the row list. -/
lemma jsSelf_popular (a : List Char) (lo hi i : Nat)
    (hp : popularB a (a.getD i ' ') = true) : jsSelf a lo hi i = [] := by
  unfold jsSelf b2j
  rw [if_pos hp]
  rfl

/-- The row list is strictly ascending. -/
lemma jsSelf_sorted (a : List Char) (lo hi i : Nat) :
    (jsSelf a lo hi i).Pairwise (· < ·) := by
  unfold jsSelf b2j
  split
  · simp
  · exact ((List.pairwise_lt_range _).filter _).filter _

/-- A strictly ascending list containing `r` splits into the part below
`r`, the element `r` itself, and the part above `r`. -/
lemma sorted_split (r : Nat) :
    ∀ l : List Nat, l.Pairwise (· < ·) → r ∈ l →
      l = l.filter (fun j => decide (j < r)) ++
        r :: l.filter (fun j => decide (r < j)) := by
  intro l
  induction l with
  | nil => intro _ hm; cases hm
  | cons h t ih =>
      intro hs hm
      have hph := (List.pairwise_cons.mp hs).1
      have hpt := (List.pairwise_cons.mp hs).2
      rcases List.mem_cons.mp hm with rfl | hm'
      · have h1 : (r :: t).filter (fun j => decide (j < r)) = [] := by
          rw [List.filter_eq_nil_iff]
          intro x hx
          rcases List.mem_cons.mp hx with rfl | hx'
          · simp
          · simp only [decide_eq_true_eq]
            exact not_lt_of_lt (hph x hx')
        have h2 : (r :: t).filter (fun j => decide (r < j)) = t := by
          rw [List.filter_cons, if_neg (by simp)]
          exact List.filter_eq_self.mpr (fun x hx => decide_eq_true (hph x hx))
        rw [h1, h2]
        rfl
      · have hlt : h < r := hph r hm'
        have hrec := ih hpt hm'
        rw [List.filter_cons, List.filter_cons,
          if_pos (decide_eq_true hlt),
          if_neg (by simp only [decide_eq_true_eq]; exact not_lt_of_lt hlt),
          List.cons_append]
        exact congrArg (h :: ·) hrec

/-- Backward extension along the diagonal reaches the window start. -/
lemma extBack_self (a : List Char) (lo : Nat) :
    ∀ p, lo ≤ p → ∀ s, extBack a a lo lo p p s = (lo, lo, s + (p - lo)) := by
  intro p
  induction p using Nat.strong_induction_on with
  | _ p ih =>
    intro hp s
    rw [extBack]
    by_cases h : lo < p
    · rw [if_pos ⟨h, h, rfl⟩]
      rw [ih (p - 1) (by omega) (by omega) (s + 1)]
      have harith : s + 1 + (p - 1 - lo) = s + (p - lo) := by omega
      rw [harith]
    · rw [if_neg (fun hc => h hc.1)]
      have hpe : p = lo := by omega
      subst hpe
      simp

/-- Forward extension along the diagonal reaches the window end. -/
lemma extFwd_self (a : List Char) (hi q : Nat) :
    ∀ n t, hi - (q + t) ≤ n → q + t ≤ hi →
      extFwd a a hi hi q q t = (q, q, hi - q) := by
  intro n
  induction n with
  | zero =>
      intro t h1 h2
      rw [extFwd, if_neg]
      · have ht : t = hi - q := by omega
        rw [ht]
      · rintro ⟨hc, -, -⟩
        omega
  | succ n ih =>
      intro t h1 h2
      by_cases hc : q + t < hi
      · rw [extFwd, if_pos ⟨hc, hc, rfl⟩]
        exact ih (t + 1) (by omega) (by omega)
      · rw [extFwd, if_neg (fun hx => hc hx.1)]
        have ht : t = hi - q := by omega
        rw [ht]

end UfoDedup
namespace UfoDedup

/-- `colStep` when the candidate chain does not beat the best block:
only the row map changes. -/
lemma colStep_noUpdate (i : Nat) (j2old : Nat → Nat) (s : FlmSt) (j : Nat)
    (h : ¬ (s.bs < (if j = 0 then 0 else j2old (j - 1)) + 1)) :
    colStep i j2old s j =
      ⟨fun x => if x = j then (if j = 0 then 0 else j2old (j - 1)) + 1
          else s.j2 x,
        s.bi, s.bj, s.bs⟩ := by
  simp only [colStep]
  rw [if_neg h]

/-- `colStep` when the candidate chain strictly beats the best block:
the best block is repositioned to the chain's start. -/
lemma colStep_update (i : Nat) (j2old : Nat → Nat) (s : FlmSt) (j : Nat)
    (h : s.bs < (if j = 0 then 0 else j2old (j - 1)) + 1) :
    colStep i j2old s j =
      ⟨fun x => if x = j then (if j = 0 then 0 else j2old (j - 1)) + 1
          else s.j2 x,
        i + 1 - ((if j = 0 then 0 else j2old (j - 1)) + 1),
        j + 1 - ((if j = 0 then 0 else j2old (j - 1)) + 1),
        (if j = 0 then 0 else j2old (j - 1)) + 1⟩ := by
  simp only [colStep]
  rw [if_pos h]

/-- Invariant of the self-comparison main loop after processing rows
`[lo, r)`: the row map is bounded by the eligible runs (uniformly by
the last processed row's run and per column), the best block is
diagonal, every processed run is dominated by the best size, and the
diagonal entry of the last processed row is at least its run. -/
def SelfInv (a : List Char) (lo hi r : Nat) (st : FlmSt) : Prop :=
  (∀ x, st.j2 x ≤ (if lo < r then eRun a lo hi (r - 1) else 0)) ∧
  (∀ x, st.j2 x ≤ eRun a lo hi x) ∧
  st.bi = st.bj ∧
  (∀ x, lo ≤ x → x < r → eRun a lo hi x ≤ st.bs) ∧
  (lo < r → eRun a lo hi (r - 1) ≤ st.j2 (r - 1))

/-- One row of the self comparison preserves the invariant. -/
lemma selfInv_step (a : List Char) (lo hi : Nat) (hhi : hi ≤ a.length)
    (r : Nat) (hr1 : lo ≤ r) (hr2 : r < hi) (st : FlmSt)
    (h : SelfInv a lo hi r st) :
    SelfInv a lo hi (r + 1) (rowStep a a lo hi st r) := by
  obtain ⟨h1, h2, h3, h4, h5⟩ := h
  rw [rowStep_eq_jsSelf]
  by_cases hp : popularB a (a.getD r ' ') = true
  · -- popular row character: the row list is empty, the run resets
    rw [jsSelf_popular a lo hi r hp]
    have helig : eligB a lo hi r = false := by
      unfold eligB
      rw [hp]
      simp
    have hE : eRun a lo hi r = 0 := eRun_eq_zero a lo hi r helig
    refine ⟨fun x => Nat.zero_le _, fun x => Nat.zero_le _, h3, ?_, ?_⟩
    · intro x hx hx2
      rcases Nat.lt_succ_iff_lt_or_eq.mp hx2 with hlt | heq
      · exact h4 x hx hlt
      · subst heq
        rw [hE]
        exact Nat.zero_le _
    · intro _
      show eRun a lo hi r ≤ 0
      rw [hE]
  · -- eligible row: split the ascending row list around the diagonal
    have hp2 : popularB a (a.getD r ' ') = false := Bool.eq_false_iff.mpr hp
    have helig : eligB a lo hi r = true := by
      unfold eligB
      rw [hp2]
      simp [hr1, hr2]
    have hEr : eRun a lo hi r = (if r = 0 then 0 else eRun a lo hi (r - 1)) + 1 := by
      cases r with
      | zero =>
          show (if eligB a lo hi 0 then 1 else 0) = _
          rw [if_pos helig, if_pos rfl]
      | succ x =>
          show (if eligB a lo hi (x + 1) then eRun a lo hi x + 1 else 0) = _
          rw [if_pos helig, if_neg (Nat.succ_ne_zero x)]
          simp
    have hErPos : 1 ≤ eRun a lo hi r := by
      rw [hEr]
      omega
    have hkU : ∀ j : Nat,
        (if j = 0 then 0 else st.j2 (j - 1)) + 1 ≤ eRun a lo hi r := by
      intro j
      rw [hEr]
      refine Nat.succ_le_succ ?_
      by_cases hj : j = 0
      · rw [if_pos hj]
        exact Nat.zero_le _
      · rw [if_neg hj]
        by_cases hlr : lo < r
        · have hr0 : r ≠ 0 := by omega
          rw [if_neg hr0]
          have hb := h1 (j - 1)
          rw [if_pos hlr] at hb
          exact hb
        · have hb := h1 (j - 1)
          rw [if_neg hlr] at hb
          rw [Nat.le_zero.mp hb]
          exact Nat.zero_le _
    have hkC : ∀ j : Nat, eligB a lo hi j = true →
        (if j = 0 then 0 else st.j2 (j - 1)) + 1 ≤ eRun a lo hi j := by
      intro j hj
      cases j with
      | zero =>
          show 0 + 1 ≤ eRun a lo hi 0
          have hE0 : eRun a lo hi 0 = 1 := by
            show (if eligB a lo hi 0 then 1 else 0) = 1
            rw [if_pos hj]
          omega
      | succ x =>
          have hEx : eRun a lo hi (x + 1) = eRun a lo hi x + 1 := by
            show (if eligB a lo hi (x + 1) then eRun a lo hi x + 1 else 0) = _
            rw [if_pos hj]
          rw [hEx, if_neg (Nat.succ_ne_zero x)]
          exact Nat.succ_le_succ (h2 x)
    have hkD : eRun a lo hi r ≤ (if r = 0 then 0 else st.j2 (r - 1)) + 1 := by
      rw [hEr]
      refine Nat.succ_le_succ ?_
      by_cases hr0 : r = 0
      · rw [if_pos hr0, if_pos hr0]
      · rw [if_neg hr0, if_neg hr0]
        by_cases hlr : lo < r
        · exact h5 hlr
        · have hel : eligB a lo hi (r - 1) = false := by
            unfold eligB
            have hnle : ¬ lo ≤ r - 1 := by omega
            simp [hnle]
          rw [eRun_eq_zero a lo hi (r - 1) hel]
          exact Nat.zero_le _
    have hsplit := sorted_split r (jsSelf a lo hi r) (jsSelf_sorted a lo hi r)
      (self_mem_jsSelf a lo hi r hr1 hr2 hhi hp2)
    rw [hsplit, List.foldl_append, List.foldl_cons]
    -- Stage 1: columns strictly below the diagonal never improve the best
    have stage1 := foldl_inv (colStep r st.j2)
      (fun s => s.bi = st.bi ∧ s.bj = st.bj ∧ s.bs = st.bs ∧
        (∀ x, s.j2 x ≤ eRun a lo hi x) ∧ (∀ x, s.j2 x ≤ eRun a lo hi r) ∧
        (∀ x, r ≤ x → s.j2 x = 0))
      ((jsSelf a lo hi r).filter (fun j => decide (j < r)))
      ⟨fun _ => 0, st.bi, st.bj, st.bs⟩
      ⟨rfl, rfl, rfl, fun x => Nat.zero_le _, fun x => Nat.zero_le _,
        fun x _ => rfl⟩
      (by
        intro s j hj hq
        obtain ⟨hb1, hb2, hb3, hm1, hm2, hm3⟩ := hq
        have hjs : j ∈ jsSelf a lo hi r := (List.mem_filter.mp hj).1
        have hjr : j < r := by
          have hd := (List.mem_filter.mp hj).2
          simpa using hd
        have hje : eligB a lo hi j = true := eligB_of_mem_jsSelf a lo hi r j hjs
        have hjlo : lo ≤ j := ((mem_jsSelf a lo hi r j).mp hjs).2.2.2.1
        have hkle : (if j = 0 then 0 else st.j2 (j - 1)) + 1 ≤ eRun a lo hi j :=
          hkC j hje
        have hnoup : ¬ (s.bs < (if j = 0 then 0 else st.j2 (j - 1)) + 1) := by
          rw [hb3]
          have hd := h4 j hjlo hjr
          omega
        rw [colStep_noUpdate r st.j2 s j hnoup]
        refine ⟨hb1, hb2, hb3, ?_, ?_, ?_⟩
        · intro x
          show (if x = j then (if j = 0 then 0 else st.j2 (j - 1)) + 1
              else s.j2 x) ≤ eRun a lo hi x
          by_cases hx : x = j
          · subst hx
            rw [if_pos rfl]
            exact hkle
          · rw [if_neg hx]
            exact hm1 x
        · intro x
          show (if x = j then (if j = 0 then 0 else st.j2 (j - 1)) + 1
              else s.j2 x) ≤ eRun a lo hi r
          by_cases hx : x = j
          · rw [if_pos hx]
            exact hkU j
          · rw [if_neg hx]
            exact hm2 x
        · intro x hx
          show (if x = j then (if j = 0 then 0 else st.j2 (j - 1)) + 1
              else s.j2 x) = 0
          have hxj : x ≠ j := by omega
          rw [if_neg hxj]
          exact hm3 x hx)
    obtain ⟨s1b1, s1b2, s1b3, s1m1, s1m2, s1m3⟩ := stage1
    -- Stage 2: the diagonal column writes exactly the run value
    have stage2 : ∀ s2, s2 = colStep r st.j2
        (((jsSelf a lo hi r).filter (fun j => decide (j < r))).foldl
          (colStep r st.j2) ⟨fun _ => 0, st.bi, st.bj, st.bs⟩) r →
        s2.bi = s2.bj ∧ eRun a lo hi r ≤ s2.bs ∧ st.bs ≤ s2.bs ∧
          (∀ x, s2.j2 x ≤ eRun a lo hi x) ∧
          (∀ x, s2.j2 x ≤ eRun a lo hi r) ∧
          eRun a lo hi r ≤ s2.j2 r := by
      intro s2 hs2
      set s1 := ((jsSelf a lo hi r).filter (fun j => decide (j < r))).foldl
        (colStep r st.j2) ⟨fun _ => 0, st.bi, st.bj, st.bs⟩ with hs1
      by_cases hup : s1.bs < (if r = 0 then 0 else st.j2 (r - 1)) + 1
      · rw [colStep_update r st.j2 s1 r hup] at hs2
        subst hs2
        refine ⟨rfl, ?_, ?_, ?_, ?_, ?_⟩
        · exact hkD
        · show st.bs ≤ (if r = 0 then 0 else st.j2 (r - 1)) + 1
          rw [s1b3] at hup
          omega
        · intro x
          show (if x = r then (if r = 0 then 0 else st.j2 (r - 1)) + 1
              else s1.j2 x) ≤ eRun a lo hi x
          by_cases hx : x = r
          · subst hx
            rw [if_pos rfl]
            exact hkC x helig
          · rw [if_neg hx]
            exact s1m1 x
        · intro x
          show (if x = r then (if r = 0 then 0 else st.j2 (r - 1)) + 1
              else s1.j2 x) ≤ eRun a lo hi r
          by_cases hx : x = r
          · rw [if_pos hx]
            exact hkU r
          · rw [if_neg hx]
            exact s1m2 x
        · show eRun a lo hi r ≤
            (if r = r then (if r = 0 then 0 else st.j2 (r - 1)) + 1 else s1.j2 r)
          rw [if_pos rfl]
          exact hkD
      · rw [colStep_noUpdate r st.j2 s1 r hup] at hs2
        subst hs2
        refine ⟨?_, ?_, ?_, ?_, ?_, ?_⟩
        · show s1.bi = s1.bj
          rw [s1b1, s1b2]
          exact h3
        · show eRun a lo hi r ≤ s1.bs
          omega
        · show st.bs ≤ s1.bs
          rw [s1b3]
        · intro x
          show (if x = r then (if r = 0 then 0 else st.j2 (r - 1)) + 1
              else s1.j2 x) ≤ eRun a lo hi x
          by_cases hx : x = r
          · subst hx
            rw [if_pos rfl]
            exact hkC x helig
          · rw [if_neg hx]
            exact s1m1 x
        · intro x
          show (if x = r then (if r = 0 then 0 else st.j2 (r - 1)) + 1
              else s1.j2 x) ≤ eRun a lo hi r
          by_cases hx : x = r
          · rw [if_pos hx]
            exact hkU r
          · rw [if_neg hx]
            exact s1m2 x
        · show eRun a lo hi r ≤
            (if r = r then (if r = 0 then 0 else st.j2 (r - 1)) + 1 else s1.j2 r)
          rw [if_pos rfl]
          exact hkD
    -- Stage 3: columns above the diagonal never improve the best
    have stage3 := foldl_inv (colStep r st.j2)
      (fun s => s.bi = s.bj ∧ eRun a lo hi r ≤ s.bs ∧ st.bs ≤ s.bs ∧
        (∀ x, s.j2 x ≤ eRun a lo hi x) ∧ (∀ x, s.j2 x ≤ eRun a lo hi r) ∧
        eRun a lo hi r ≤ s.j2 r)
      ((jsSelf a lo hi r).filter (fun j => decide (r < j)))
      (colStep r st.j2
        (((jsSelf a lo hi r).filter (fun j => decide (j < r))).foldl
          (colStep r st.j2) ⟨fun _ => 0, st.bi, st.bj, st.bs⟩) r)
      (stage2 _ rfl)
      (by
        intro s j hj hq
        obtain ⟨hb1, hb2, hb3, hm1, hm2, hm3⟩ := hq
        have hjs : j ∈ jsSelf a lo hi r := (List.mem_filter.mp hj).1
        have hjr : r < j := by
          have hd := (List.mem_filter.mp hj).2
          simpa using hd
        have hje : eligB a lo hi j = true := eligB_of_mem_jsSelf a lo hi r j hjs
        have hnoup : ¬ (s.bs < (if j = 0 then 0 else st.j2 (j - 1)) + 1) := by
          have hd := hkU j
          omega
        rw [colStep_noUpdate r st.j2 s j hnoup]
        refine ⟨hb1, hb2, hb3, ?_, ?_, ?_⟩
        · intro x
          show (if x = j then (if j = 0 then 0 else st.j2 (j - 1)) + 1
              else s.j2 x) ≤ eRun a lo hi x
          by_cases hx : x = j
          · subst hx
            rw [if_pos rfl]
            exact hkC x hje
          · rw [if_neg hx]
            exact hm1 x
        · intro x
          show (if x = j then (if j = 0 then 0 else st.j2 (j - 1)) + 1
              else s.j2 x) ≤ eRun a lo hi r
          by_cases hx : x = j
          · rw [if_pos hx]
            exact hkU j
          · rw [if_neg hx]
            exact hm2 x
        · show (if r = j then (if j = 0 then 0 else st.j2 (j - 1)) + 1
              else s.j2 r) ≥ eRun a lo hi r
          have hrj : r ≠ j := by omega
          rw [if_neg hrj]
          exact hm3)
    obtain ⟨f1, f2, f3, f4, f5, f6⟩ := stage3
    refine ⟨?_, f4, f1, ?_, ?_⟩
    · intro x
      rw [if_pos (show lo < r + 1 by omega)]
      exact f5 x
    · intro x hx hx2
      rcases Nat.lt_succ_iff_lt_or_eq.mp hx2 with hlt | heq
      · exact le_trans (h4 x hx hlt) f3
      · subst heq
        exact f2
    · intro _
      exact f6

end UfoDedup
namespace UfoDedup

/-- The best block of the main loop is on the diagonal when a sequence
is compared with itself. -/
lemma flmMain_self_diag (a : List Char) (lo hi : Nat) (hhi : hi ≤ a.length) :
    (flmMain a a lo hi lo hi).bi = (flmMain a a lo hi lo hi).bj := by
  have hinv := range'_foldl_inv (rowStep a a lo hi) (SelfInv a lo hi)
    (hi - lo) lo ⟨fun _ => 0, lo, lo, 0⟩
    ⟨fun x => by rw [if_neg (lt_irrefl lo)],
      fun x => Nat.zero_le _, rfl,
      fun x hx hx2 => absurd (lt_of_le_of_lt hx hx2) (lt_irrefl lo),
      fun hc => absurd hc (lt_irrefl lo)⟩
    (fun r stp hr hlt hpinv =>
      selfInv_step a lo hi hhi r hr (by omega) stp hpinv)
  exact hinv.2.2.1

/-- On the self comparison, `find_longest_match` returns the whole
window. -/
lemma flm_self (a : List Char) (lo hi : Nat) (h1 : lo ≤ hi)
    (h2 : hi ≤ a.length) : flm a a lo hi lo hi = (lo, lo, hi - lo) := by
  have hd := flmMain_self_diag a lo hi h2
  have hb := flmMain_bounds a a lo hi lo hi
  simp only [flm]
  rw [← hd]
  rw [extBack_self a lo (flmMain a a lo hi lo hi).bi hb.1
    (flmMain a a lo hi lo hi).bs]
  show extFwd a a hi hi lo lo
    ((flmMain a a lo hi lo hi).bs + ((flmMain a a lo hi lo hi).bi - lo)) = _
  rw [extFwd_self a hi lo
    (hi - (lo + ((flmMain a a lo hi lo hi).bs +
      ((flmMain a a lo hi lo hi).bi - lo))))
    ((flmMain a a lo hi lo hi).bs + ((flmMain a a lo hi lo hi).bi - lo))
    le_rfl ?_]
  rcases hb.2.2 with ⟨hc1, -⟩ | ⟨hc1, hc2, -⟩
  · have := hb.1
    omega
  · rw [hc1, hc2]
    omega

/-- On the self comparison, the matched total is the whole window. -/
lemma matchTotal_self (a : List Char) (lo hi : Nat) (h1 : lo ≤ hi)
    (h2 : hi ≤ a.length) : matchTotal a a lo hi lo hi = hi - lo := by
  rw [matchTotal, flm_self a lo hi h1 h2]
  dsimp only
  by_cases h : lo < hi
  · rw [dif_pos ⟨by omega, le_rfl, by omega, le_rfl, by omega⟩,
      if_neg (fun hc => lt_irrefl lo hc.1),
      if_neg (fun hc => absurd hc.1 (by omega))]
    omega
  · rw [dif_neg (fun hc => absurd hc.1 (by omega))]
    omega

/-- `ratio()` of a nonempty sequence against itself is 1. -/
lemma seqRatio_self (a : List Char) (ha : a ≠ []) : seqRatio a a = 1 := by
  unfold seqRatio
  rw [matchTotal_self a 0 a.length (Nat.zero_le _) le_rfl, Nat.sub_zero]
  have hpos : 0 < a.length := List.length_pos.mpr ha
  have hq : (0 : ℚ) < (a.length : ℚ) := by exact_mod_cast hpos
  rw [div_eq_one_iff_eq (by linarith)]
  ring

end UfoDedup
namespace UfoDedup

/-- The 0.95 shortcut fires on a self pair when the whitespace-stripped
text has at least 20 characters. -/
lemma shortcut_self_of_long (s : String)
    (h : 20 ≤ (pyStrip s.data).length) : startsWithShortcut s s = true := by
  simp only [startsWithShortcut, Nat.min_self, List.take_length]
  rw [Bool.and_eq_true, Bool.or_eq_true]
  refine ⟨decide_eq_true ?_, Or.inl ?_⟩
  · rw [List.length_map]
    exact h
  · rw [List.isPrefixOf_iff_prefix]

/-- The 0.95 shortcut cannot fire on a self pair when the stripped text
is shorter than 20 characters. -/
lemma shortcut_self_short (s : String)
    (h : (pyStrip s.data).length < 20) : startsWithShortcut s s = false := by
  simp only [startsWithShortcut, Nat.min_self]
  have hn : ¬ (20 ≤ ((pyStrip s.data).map Char.toLower).length) := by
    rw [List.length_map]
    omega
  rw [decide_eq_false hn, Bool.false_and]

/-- Jaccard similarity of a nonempty string with a nonempty token set
against itself is 1. -/
lemma token_jaccard_self_eq_one (s : String) (hne : s ≠ "")
    (hA : tokenSet s ≠ ∅) : token_jaccard s s = 1 := by
  simp only [token_jaccard]
  rw [if_neg (by simp [hne]), if_neg (fun hor => hA (hor.elim id id)),
    Finset.inter_self, Finset.union_self, div_self]
  exact Nat.cast_ne_zero.mpr (fun hcard => hA (Finset.card_eq_zero.mp hcard))

/-- C3 counterexample: `"???"` strips to fewer than 20 characters, its
token set is empty, so the Jaccard fast filter returns 0.0 — the
self-similarity is neither 1.0 nor produced by the sequence-alignment
path. -/
theorem c3_counterexample :
    (pyStrip ("???" : String).data).length < 20 ∧
      compute_similarity (some "???") (some "???") none none = 0 ∧
      compute_similarity (some "???") (some "???") none none ≠ 1 := by
  have hj : token_jaccard "???" "???" = 0 :=
    token_jaccard_eq_zero _ _ (by decide)
  have hcomp : compute_similarity (some "???") (some "???") none none = 0 := by
    simp only [compute_similarity]
    rw [if_neg (by decide), stripFor_none]
    unfold simScore
    rw [if_neg (by decide),
      if_neg (by rw [shortcut_self_short "???" (by decide)]; simp),
      if_pos (by rw [hj]; norm_num)]
    exact hj
  exact ⟨by decide, hcomp, by rw [hcomp]; norm_num⟩

/-- C3 (amended): for a nonempty string compared with itself, the score
is 0.95 when the stripped text has at least 20 characters; below 20
characters it is 1.0 when the token set is nonempty (the Jaccard value
1 passes the 0.03 filter and the sequence alignment of the identical
texts gives 1.0), but 0.0 when the token set is empty (the Jaccard
fast filter returns 0 before the sequence-alignment path is reached). -/
theorem c3_self_similarity_amended (s : String) (hne : s ≠ "") :
    (20 ≤ (pyStrip s.data).length →
      compute_similarity (some s) (some s) none none = 19 / 20) ∧
    ((pyStrip s.data).length < 20 → tokenSet s ≠ ∅ →
      compute_similarity (some s) (some s) none none = 1) ∧
    ((pyStrip s.data).length < 20 → tokenSet s = ∅ →
      compute_similarity (some s) (some s) none none = 0) := by
  have hne2 : ¬ (s = "" ∨ s = "") := fun hor => hne (hor.elim id id)
  have hd : s.data ≠ [] := fun hnil => hne (String.ext hnil)
  refine ⟨?_, ?_, ?_⟩
  · intro hlong
    exact compute_similarity_shortcut s s hne2 (shortcut_self_of_long s hlong)
  · intro hshort hA
    simp only [compute_similarity]
    rw [if_neg hne2, stripFor_none]
    unfold simScore
    rw [if_neg hne2,
      if_neg (by rw [shortcut_self_short s hshort]; simp),
      if_neg (by rw [token_jaccard_self_eq_one s hne hA]; norm_num)]
    apply seqRatio_self
    intro htk
    have hlen := congrArg List.length htk
    rw [List.length_take] at hlen
    have hlen2 : s.data.length ≠ 0 := fun hz => hd (List.length_eq_zero.mp hz)
    simp only [List.length_nil] at hlen
    omega
  · intro hshort hA
    have hj : token_jaccard s s = 0 := by
      simp only [token_jaccard]
      rw [if_neg (by simp [hne]), if_pos (Or.inl hA)]
    simp only [compute_similarity]
    rw [if_neg hne2, stripFor_none]
    unfold simScore
    rw [if_neg hne2,
      if_neg (by rw [shortcut_self_short s hshort]; simp),
      if_pos (by rw [hj]; norm_num)]
    exact hj

/-- C3 witness: a short nonempty word with a nonempty token set has
self-similarity exactly 1. -/
theorem c3_witness :
    ("hello" : String) ≠ "" ∧ (pyStrip ("hello" : String).data).length < 20 ∧
      tokenSet "hello" ≠ ∅ ∧
      compute_similarity (some "hello") (some "hello") none none = 1 :=
  ⟨by decide, by decide, by decide,
    (c3_self_similarity_amended "hello" (by decide)).2.1 (by decide) (by decide)⟩

end UfoDedup
namespace UfoDedup

/-- Deduplication keeps exactly the members of the original list. -/
lemma foldl_distinct_mem {α : Type} [DecidableEq α] (x : α) :
    ∀ (l acc : List α),
      (x ∈ l.foldl (fun acc y => if y ∈ acc then acc else acc ++ [y]) acc ↔
        x ∈ acc ∨ x ∈ l) := by
  intro l
  induction l with
  | nil => intro acc; simp
  | cons a t ih =>
      intro acc
      rw [List.foldl_cons, ih]
      by_cases ha : a ∈ acc
      · rw [if_pos ha]
        constructor
        · rintro (h | h)
          · exact Or.inl h
          · exact Or.inr (List.mem_cons_of_mem a h)
        · rintro (h | h)
          · exact Or.inl h
          · rcases List.mem_cons.mp h with rfl | h2
            · exact Or.inl ha
            · exact Or.inr h2
      · rw [if_neg ha]
        rw [List.mem_append, List.mem_singleton, List.mem_cons, or_assoc]

/-- Membership in `distinctsIn`. -/
lemma mem_distinctsIn {α : Type} [DecidableEq α] (l : List α) (x : α) :
    x ∈ distinctsIn l ↔ x ∈ l := by
  unfold distinctsIn
  rw [foldl_distinct_mem]
  simp

/-- A target date satisfies both `HAVING` bounds of the tier-3 query. -/
lemma targetDates_bounds (db : DB) (d : String) (hd : d ∈ targetDates db) :
    2 ≤ (distinctsIn (((db.sightings.filter dateOk10).filter
        (fun s => truncD s = d)).map (fun s => s.source_db_id))).length ∧
      ((db.sightings.filter dateOk10).filter
        (fun s => truncD s = d)).length ≤ 20 := by
  simp only [targetDates, List.mem_filter] at hd
  have hp := hd.2
  rw [Bool.and_eq_true] at hp
  exact ⟨of_decide_eq_true hp.1, of_decide_eq_true hp.2⟩

/-- Every row of the table after `insert_candidates` is either an old
row or carries the canonicalized ids of a generated tuple. -/
lemma mem_insert_candidates (tbl : List Candidate)
    (gen : List (Nat × Nat × ℚ × String × String)) (c : Candidate)
    (hc : c ∈ insert_candidates tbl gen) :
    c ∈ tbl ∨ ∃ p ∈ gen, c.sighting_id_a = min p.1 p.2.1 ∧
      c.sighting_id_b = max p.1 p.2.1 := by
  simp only [insert_candidates] at hc
  refine foldl_inv _
    (fun t => ∀ x : Candidate, x ∈ t → x ∈ tbl ∨
      ∃ p ∈ gen, x.sighting_id_a = min p.1 p.2.1 ∧
        x.sighting_id_b = max p.1 p.2.1)
    _ tbl (fun x hx => Or.inl hx) ?_ c hc
  intro t q hq hP x hx
  split at hx
  · exact hP x hx
  · rw [List.mem_append, List.mem_singleton] at hx
    rcases hx with hx | rfl
    · exact hP x hx
    · right
      rw [List.mem_filterMap] at hq
      obtain ⟨p, hpg, hpeq⟩ := hq
      refine ⟨p, hpg, ?_⟩
      split at hpeq
      · exact absurd hpeq (by simp)
      · have hqe := Option.some.inj hpeq
        rw [← hqe]
        exact ⟨rfl, rfl⟩

/-- Provenance of tier-3 tuples: every generated pair comes from two
date-filtered sightings sharing a target truncated date. -/
lemma tier3Pairs_sources (db : DB) (p : Nat × Nat × ℚ × String × String)
    (hp : p ∈ tier3Pairs db) :
    ∃ sa sb : Sighting, sa ∈ db.sightings ∧ sb ∈ db.sightings ∧
      dateOk10 sa = true ∧ dateOk10 sb = true ∧
      truncD sa ∈ targetDates db ∧ truncD sb = truncD sa ∧
      p.1 = sa.id ∧ p.2.1 = sb.id := by
  simp only [tier3Pairs] at hp
  rw [List.mem_flatMap] at hp
  obtain ⟨d, hd, hp⟩ := hp
  rw [List.mem_flatMap] at hp
  obtain ⟨sp, hsp, hp⟩ := hp
  rw [List.mem_flatMap] at hp
  obtain ⟨sa, hsa, hp⟩ := hp
  rw [List.mem_filterMap] at hp
  obtain ⟨sb, hsb, hfb⟩ := hp
  have hsa1 := List.mem_filter.mp hsa
  have hsa2 := List.mem_filter.mp hsa1.1
  have hsa3 := List.mem_filter.mp hsa2.1
  have hsb1 := List.mem_filter.mp hsb
  have hsb2 := List.mem_filter.mp hsb1.1
  have hsb3 := List.mem_filter.mp hsb2.1
  have hsad : truncD sa = d := of_decide_eq_true hsa2.2
  have hsbd : truncD sb = d := of_decide_eq_true hsb2.2
  have hdt : d ∈ targetDates db := by
    rw [mem_distinctsIn] at hd
    rw [List.mem_map] at hd
    obtain ⟨s0, hs0f, hs0d⟩ := hd
    have hs0 := List.mem_filter.mp hs0f
    have := of_decide_eq_true hs0.2
    rw [← hs0d]
    exact this
  refine ⟨sa, sb, hsa3.1, hsb3.1, hsa3.2, hsb3.2, ?_, ?_, ?_, ?_⟩
  · rw [hsad]
    exact hdt
  · rw [hsbd, hsad]
  · split at hfb
    · exact absurd hfb (by simp)
    · split at hfb
      · exact absurd hfb (by simp)
      · split at hfb
        · rw [← Option.some.inj hfb]
        · exact absurd hfb (by simp)
  · split at hfb
    · exact absurd hfb (by simp)
    · split at hfb
      · exact absurd hfb (by simp)
      · split at hfb
        · rw [← Option.some.inj hfb]
        · exact absurd hfb (by simp)

/-- C6: for any date `d`, if the date-filtered records with truncated
date `d` number more than 20, or all come from a single source
database, then no candidate newly inserted by tier 3 links two
sightings dated `d` (such a `d` fails the `HAVING` clause, so it is
never a target date). -/
theorem c6_tier3_caps (db : DB) (d : String)
    (hids : (db.sightings.map Sighting.id).Nodup)
    (hcap : 20 < ((db.sightings.filter dateOk10).filter
          (fun s => truncD s = d)).length ∨
        (distinctsIn (((db.sightings.filter dateOk10).filter
          (fun s => truncD s = d)).map (fun s => s.source_db_id))).length ≤ 1) :
    ∀ c, c ∈ (tier_3 db).candidates → c ∉ db.candidates →
      ∀ ta tb, ta ∈ db.sightings → tb ∈ db.sightings →
        ta.id = c.sighting_id_a → tb.id = c.sighting_id_b →
        ¬(dateOk10 ta = true ∧ truncD ta = d ∧
            dateOk10 tb = true ∧ truncD tb = d) := by
  intro c hc hcnot ta tb hta htb hida hidb hcontra
  obtain ⟨hta10, htad, htb10, htbd⟩ := hcontra
  have hc' : c ∈ insert_candidates db.candidates (tier3Pairs db) := hc
  rcases mem_insert_candidates db.candidates (tier3Pairs db) c hc' with
    hold | ⟨p, hp, hpa, hpb⟩
  · exact hcnot hold
  obtain ⟨sa, sb, hsa, hsb, hsa10, hsb10, hsatgt, hsbeq, hp1, hp2⟩ :=
    tier3Pairs_sources db p hp
  have hta_id : ta.id = min sa.id sb.id := by
    rw [hida, hpa, hp1, hp2]
  have hinj : ∀ x ∈ db.sightings, ∀ y ∈ db.sightings, x.id = y.id → x = y :=
    fun x hx y hy hxy => List.inj_on_of_nodup_map hids hx hy hxy
  have hta_or : ta.id = sa.id ∨ ta.id = sb.id := by
    rcases le_total sa.id sb.id with hle | hle
    · left
      rw [hta_id, min_eq_left hle]
    · right
      rw [hta_id, min_eq_right hle]
  have hdmem : d ∈ targetDates db := by
    rcases hta_or with hcase | hcase
    · have htsa : ta = sa := hinj ta hta sa hsa hcase
      rw [← htsa, htad] at hsatgt
      exact hsatgt
    · have htsb : ta = sb := hinj ta hta sb hsb hcase
      have hsad : truncD sa = d := by
        rw [← hsbeq, ← htsb]
        exact htad
      rw [hsad] at hsatgt
      exact hsatgt
  have hb := targetDates_bounds db d hdmem
  rcases hcap with h | h
  · omega
  · omega

/-- Concrete single-source store for the C6 witness. -/
def dbW : DB :=
  ⟨[⟨1, 1, some "2020-02-02", none, none, none⟩,
    ⟨2, 1, some "2020-02-02", none, none, none⟩], [], []⟩

/-- C6 witness: a store whose records for 2020-02-02 all come from one
source satisfies the cap hypothesis, and the theorem applies. -/
theorem c6_witness :
    (dbW.sightings.map Sighting.id).Nodup ∧
      (distinctsIn (((dbW.sightings.filter dateOk10).filter
        (fun s => truncD s = "2020-02-02")).map
          (fun s => s.source_db_id))).length ≤ 1 ∧
      (∀ c, c ∈ (tier_3 dbW).candidates → c ∉ dbW.candidates →
        ∀ ta tb, ta ∈ dbW.sightings → tb ∈ dbW.sightings →
          ta.id = c.sighting_id_a → tb.id = c.sighting_id_b →
          ¬(dateOk10 ta = true ∧ truncD ta = "2020-02-02" ∧
              dateOk10 tb = true ∧ truncD tb = "2020-02-02")) :=
  ⟨by decide, by decide,
    c6_tier3_caps dbW "2020-02-02" (by decide) (Or.inr (by decide))⟩

end UfoDedup
